import Mathlib

/-!
Verification of the mossdb storage engine (src/engine.rs, src/log.rs,
src/map.rs, src/merger.rs) against its specification.

Shallow embedding conventions:
* `Bytes` (= `List Nat`) stands for Rust `Vec<u8>` / `&[u8]`; a segment file's
  on-disk contents are carried inside the `Log` value (the file system is not
  modelled separately: every read and write of a segment goes through its
  single `Log` handle, and the merger re-reads exactly the bytes the engine
  wrote).
* `u64` / `usize` quantities are `Nat`; the 8-byte big-endian length prefixes
  written by `Log::append` are modelled by `be8`, which truncates to 64 bits
  exactly as `as u64` / `to_be_bytes` do.
* `std::collections::HashMap` is modelled as an association list with at most
  one entry per key: `Map.insert` replaces in place, `Map.get` is lookup, and
  iteration (used by `LogMerger::merge`) visits the entries in list order.
  Rust's `HashMap` iteration order is unspecified; every property proved below
  is independent of that order.
* Fallible I/O returns `Option`.  Places where the Rust code calls `.unwrap()`
  on an I/O result are noted in comments at the definition.
-/

namespace MossDB

abbrev Bytes := List Nat

/-- `(n as u64).to_be_bytes()`: the 8 big-endian base-256 digits of `n % 2^64`. -/
def be8 (n : Nat) : Bytes :=
  [n / 2 ^ 56 % 256, n / 2 ^ 48 % 256, n / 2 ^ 40 % 256, n / 2 ^ 32 % 256,
   n / 2 ^ 24 % 256, n / 2 ^ 16 % 256, n / 2 ^ 8 % 256, n % 256]

/-- `u64::from_be_bytes` (`LogRecordLen::from_log_len_bytes` after its length
check has passed): big-endian recomposition. -/
def fromBE8 (bs : Bytes) : Nat :=
  bs.foldl (fun acc b => acc * 256 + b) 0

/-- `map.rs`: `Location { offset: u64, len: usize }`. -/
structure Location where
  offset : Nat
  len : Nat
deriving DecidableEq

/-- `Location::tombstone()`: the sentinel `(offset = 0, len = 0)`. -/
def Location.tombstone : Location := ⟨0, 0⟩

/-- `Location::is_tombstone()`: true iff `len == 0`. -/
def Location.is_tombstone (l : Location) : Bool := l.len == 0

/-- `map.rs`: `Map { inner: HashMap<Vec<u8>, Location> }`, as an association
list with at most one entry per key (see the header comment). -/
structure Map where
  inner : List (Bytes × Location)
deriving DecidableEq

/-- `HashMap` lookup on the association list. -/
def assocGet (k : Bytes) : List (Bytes × Location) → Option Location
  | [] => none
  | (k', v) :: rest => if k' = k then some v else assocGet k rest

/-- `HashMap` insert on the association list: replace in place, else append. -/
def assocInsert (k : Bytes) (v : Location) : List (Bytes × Location) → List (Bytes × Location)
  | [] => [(k, v)]
  | (k', v') :: rest => if k' = k then (k, v) :: rest else (k', v') :: assocInsert k v rest

/-- `Map::new()`. -/
def Map.new : Map := ⟨[]⟩

/-- `Map::get`. -/
def Map.get (m : Map) (k : Bytes) : Option Location := assocGet k m.inner

/-- `Map::insert`. -/
def Map.insert (m : Map) (k : Bytes) (v : Location) : Map := ⟨assocInsert k v m.inner⟩

/-- `Map::len`. -/
def Map.size (m : Map) : Nat := m.inner.length

/-- `log.rs`: a `Log` is a named append-only file.  `name` is the numeric stem
of the file name `<name>.log`; `data` is the file's byte contents (spread in
the source between the file system and the open handle). -/
structure Log where
  name : Nat
  data : Bytes
deriving DecidableEq

/-- `Log::size()`: current file length. -/
def Log.size (lg : Log) : Nat := lg.data.length

/-- The bytes `Log::append(key, value)` writes:
`key_len(u64 BE) | key | value_len(u64 BE) | value`. -/
def encodeRecord (key value : Bytes) : Bytes :=
  be8 key.length ++ key ++ be8 value.length ++ value

/-- `Log::append`: appends the record and returns the stream position taken
just after writing `value_len`, i.e. the byte offset of the start of the
value. -/
def Log.append (lg : Log) (key value : Bytes) : Log × Nat :=
  let position := lg.data.length + 8 + key.length + 8
  (⟨lg.name, lg.data ++ encodeRecord key value⟩, position)

/-- `(data.drop i).take n`: the bytes of `data` at `[i, i+n)`. -/
def slice (data : Bytes) (i n : Nat) : Bytes := (data.drop i).take n

/-- `Log::read(offset, len)`: seek and `read_exact`; fails (`IOError`) when
fewer than `len` bytes are available from `offset`. -/
def Log.read (lg : Log) (offset len : Nat) : Option Bytes :=
  if offset + len ≤ lg.data.length then some (slice lg.data offset len) else none

/-- `log.rs`: `Point { offset, len, value }`. -/
structure Point where
  offset : Nat
  len : Nat
  value : Bytes
deriving DecidableEq

/-- `log.rs`: `LogEntry { key: Point, value: Point }`. -/
structure LogEntry where
  key : Point
  value : Point
deriving DecidableEq

/-- The first `len` binding of `LogIterator::next` at position `i`: the key
length read from the 8-byte prefix. -/
def recKlen (data : Bytes) (i : Nat) : Nat := fromBE8 (slice data i 8)

/-- The second `len` binding of `LogIterator::next` at position `i`: the value
length read from the 8-byte prefix following the key. -/
def recVlen (data : Bytes) (i : Nat) : Nat :=
  fromBE8 (slice data (i + 8 + recKlen data i) 8)

/-- One call of `LogIterator::next` at byte position `i`:
`some none` is iterator exhaustion (`i >= data.len()`), `some (some (e, j))`
yields the next entry and the position after it, and `none` is the panic the
Rust code hits on malformed data (an out-of-bounds slice, equivalently an
`unwrap` of `from_log_len_bytes` on a short slice). -/
def parseStep (data : Bytes) (i : Nat) : Option (Option (LogEntry × Nat)) :=
  if i ≥ data.length then some none
  else if data.length < i + 8 then none
  else if data.length < i + 8 + recKlen data i then none
  else if data.length < i + 8 + recKlen data i + 8 then none
  else if data.length < i + 8 + recKlen data i + 8 + recVlen data i then none
  else
    some (some (⟨⟨i + 8, recKlen data i, slice data (i + 8) (recKlen data i)⟩,
                 ⟨i + 8 + recKlen data i + 8, recVlen data i,
                  slice data (i + 8 + recKlen data i + 8) (recVlen data i)⟩⟩,
                i + 8 + recKlen data i + 8 + recVlen data i))

/-- `LogIterator::next` iterated to exhaustion from position `i`.  The `fuel`
argument only drives the recursion; `parse` below always supplies enough,
since every record occupies at least 16 bytes. -/
def parseFrom (fuel : Nat) (data : Bytes) (i : Nat) : Option (List LogEntry) :=
  match fuel with
  | 0 => none
  | fuel + 1 =>
    match parseStep data i with
    | some none => some []
    | some (some (e, i')) =>
      match parseFrom fuel data i' with
      | some es => some (e :: es)
      | none => none
    | none => none

/-- `Log::iter()`: the full record sequence of a file. -/
def parse (data : Bytes) : Option (List LogEntry) := parseFrom (data.length + 1) data 0

/-- `Map::load_from_log` on raw file contents: replay every record in file
order, inserting `Location::new(value.offset, value.len)`; later records
overwrite earlier ones for the same key.  On a malformed file the Rust code
panics (`unwrap` inside the iterator); that case is modelled as leaving the
map unchanged and is unreachable for files produced by `Log::append`. -/
def loadBytes (m : Map) (data : Bytes) : Map :=
  match parse data with
  | some es => es.foldl (fun m e => m.insert e.key.value ⟨e.value.offset, e.value.len⟩) m
  | none => m

/-- `Map::load_from_log(&mut self, log)`. -/
def Map.load_from_log (m : Map) (lg : Log) : Map := loadBytes m lg.data

/-- Modelled from the spec: `Engine::populate_map_from_log` is called by
`LogMerger::new` (merger.rs line 28) but is not defined anywhere under `src/`.
Per spec §4.4 step 1 it rebuilds an Index for a source segment independently,
by full replay — i.e. it is `Map::load_from_log`. -/
def Engine.populate_map_from_log (m : Map) (lg : Log) : Map := Map.load_from_log m lg

/-- `engine.rs`: `LOG_SIZE_LIMIT = 36`. -/
def LOG_SIZE_LIMIT : Nat := 36

/-- `engine.rs`: the engine owns parallel lists of indexes and segments
(`maps[i]` belongs to `logs[i]`).  `logs_dir` is dropped: it only names the
directory in which segment files are created. -/
structure Engine where
  maps : List Map
  logs : List Log
  log_limit_bytes : Nat
deriving DecidableEq

/-- Apply `f` to the last element of a list (no-op on `[]`, where the Rust
code would panic via `last_mut().unwrap()` — every engine has at least one
segment). -/
def updateLast (f : α → α) : List α → List α
  | [] => []
  | [a] => [f a]
  | a :: b :: rest => a :: updateLast f (b :: rest)

/-- `Engine::new_log_mono_increase`: name of the next segment: `0` when there
is none, else the numeric stem of the last segment plus one. -/
def nextName (logs : List Log) : Nat :=
  match logs.getLast? with
  | none => 0
  | some lg => lg.name + 1

/-- `Engine::grow`: create a fresh empty segment (named by
`new_log_mono_increase`) and a fresh empty index, both at the tail. -/
def Engine.grow (e : Engine) : Engine :=
  { e with logs := e.logs ++ [⟨nextName e.logs, []⟩], maps := e.maps ++ [Map.new] }

/-- The active (newest) segment, `logs.last()`. -/
def lastLog (e : Engine) : Log := e.logs.getLastD ⟨0, []⟩

/-- Step 1 of `Engine::set` (engine.rs lines 112-114): rotate when the active
segment's size reached the limit. -/
def Engine.growPhase (e : Engine) : Engine :=
  if (lastLog e).size ≥ e.log_limit_bytes then e.grow else e

/-- `merger.rs`: `LogMerger`. -/
structure LogMerger where
  maps : List Map
  logs : List Log
  merged_map : Map
  merged_log : Log

/-- `LogMerger::new`: reopen each source segment and rebuild an index for it
by full replay (via `Engine::populate_map_from_log`); start from an empty
result file and an empty result index.  The result file is created as
`log.merging` and later renamed onto the first source's path; the model gives
the merged log its final numeric name directly. -/
def LogMerger.new (srcs : List Log) (resultName : Nat) : LogMerger :=
  { maps := srcs.map (fun lg => Engine.populate_map_from_log Map.new lg),
    logs := srcs,
    merged_map := Map.new,
    merged_log := ⟨resultName, []⟩ }

/-- Body of `LogMerger::merge`'s inner loop, for one `(k, v)` index entry of
source segment `i`: `laterMaps` are the indexes of segments `i+1..`; if no
later index contains `k` and `v` is not a tombstone, read the value from the
source and append it to the result, recording the new location.  A failing
read (`?`) would abort the whole merge in Rust and panic in `Engine::set`;
that branch is unreachable because every rebuilt location is in bounds. -/
def mergeEntry (laterMaps : List Map) (src : Log) (acc : Map × Log) (kv : Bytes × Location) : Map × Log :=
  if !(laterMaps.any (fun m => (m.get kv.1).isSome)) && !kv.2.is_tombstone then
    match src.read kv.2.offset kv.2.len with
    | some value =>
      (acc.1.insert kv.1 ⟨(acc.2.append kv.1 value).2, value.length⟩, (acc.2.append kv.1 value).1)
    | none => acc
  else acc

/-- `LogMerger::merge`'s outer loop: `for i in 0..maps.len()`, fold segment
`i`'s index entries with `maps[i+1..]` as the later indexes. -/
def mergeRun : List (Map × Log) → Map × Log → Map × Log
  | [], acc => acc
  | (m, lg) :: rest, acc => mergeRun rest (m.inner.foldl (mergeEntry (rest.map Prod.fst) lg) acc)

/-- `LogMerger::merge` (the trailing `flush` is a file-handle detail). -/
def LogMerger.merge (lm : LogMerger) : LogMerger :=
  let res := mergeRun (lm.maps.zip lm.logs) (lm.merged_map, lm.merged_log)
  { lm with merged_map := res.1, merged_log := res.2 }

/-- Step 2 of `Engine::set` (engine.rs lines 116-135): when more than two
segments exist, merge the two oldest; splice the two (segment, index) pairs
into the single merged pair at position 0 (`logs.remove(0)`,
`maps.splice(0..2, [merged_map])`, rename the merged file onto the first
source's path, `logs[0] = Log::new(renamed)`). -/
def Engine.mergePhase (e : Engine) : Engine :=
  if e.logs.length > 2 then
    let to_merge1 := e.logs.getD 0 ⟨0, []⟩
    let to_merge2 := e.logs.getD 1 ⟨0, []⟩
    let merger := (LogMerger.new [to_merge1, to_merge2] to_merge1.name).merge
    { e with
      logs := merger.merged_log :: e.logs.drop 2,
      maps := merger.merged_map :: e.maps.drop 2 }
  else e

/-- Step 3 of `Engine::set` (engine.rs lines 137-141): append `(key, value)`
to the active segment and insert `key -> Location::new(offset, value.len())`
into the active index, where `offset` is the position `Log::append` returns
(= the active segment's size before the append, plus `8 + key.len() + 8`). -/
def Engine.appendPhase (e : Engine) (key value : Bytes) : Engine :=
  let offset := (lastLog e).size + 8 + key.length + 8
  { e with
    logs := updateLast (fun lg => (lg.append key value).1) e.logs,
    maps := updateLast (fun m => m.insert key ⟨offset, value.length⟩) e.maps }

/-- `Engine::set`. -/
def Engine.set (e : Engine) (key value : Bytes) : Engine :=
  (e.growPhase.mergePhase).appendPhase key value

/-- The scan of `Engine::get`, over (index, segment) pairs already ordered
newest first: the first index containing the key decides — `None` for a
tombstone, otherwise the value read from the paired segment (whose `unwrap`
panics in Rust if the read fails; modelled as `none`, and unreachable in any
reachable engine state). -/
def scanNewest (pairs : List (Map × Log)) (key : Bytes) : Option Bytes :=
  match pairs with
  | [] => none
  | (m, lg) :: rest =>
    match m.get key with
    | some loc => if loc.is_tombstone then none else lg.read loc.offset loc.len
    | none => scanNewest rest key

/-- `Engine::get`: `maps.iter().enumerate().rev()`, pairing `maps[i]` with
`logs[i]` (the two lists always have equal length). -/
def Engine.get (e : Engine) (key : Bytes) : Option Bytes :=
  scanNewest ((e.maps.zip e.logs).reverse) key

/-- `Engine::del`: if `get` finds the key, append a record with the empty
value to the active segment and insert the tombstone sentinel into the active
index; otherwise do nothing. -/
def Engine.del (e : Engine) (key : Bytes) : Engine :=
  match e.get key with
  | some _ =>
    { e with
      logs := updateLast (fun lg => (lg.append key []).1) e.logs,
      maps := updateLast (fun m => m.insert key Location.tombstone) e.maps }
  | none => e

/-- ASCII decimal digits of `n` (fuel-driven; `decimalBytes` supplies enough). -/
def decimalBytesAux (fuel n : Nat) : Bytes :=
  match fuel with
  | 0 => []
  | fuel + 1 => if n < 10 then [48 + n] else decimalBytesAux fuel (n / 10) ++ [48 + n % 10]

/-- The decimal rendering of `n` as ASCII bytes. -/
def decimalBytes (n : Nat) : Bytes := decimalBytesAux (n + 1) n

/-- The file name `<n>.log` as bytes (`46, 108, 111, 103` is `".log"`).  The
paths `Engine::new` compares all share the directory prefix, so comparing the
file names compares the paths. -/
def segFileName (n : Nat) : Bytes := decimalBytes n ++ [46, 108, 111, 103]

/-- Byte-wise lexicographic order, as Rust's `Ord` on strings
(`to_string_lossy` comparison). -/
def bytesLe (a b : Bytes) : Bool :=
  match a, b with
  | [], _ => true
  | _ :: _, [] => false
  | x :: xs, y :: ys => if x < y then true else if y < x then false else bytesLe xs ys

/-- Insert a segment into a list sorted by `bytesLe` on file names. -/
def insertLogSorted (x : Log) : List Log → List Log
  | [] => [x]
  | y :: ys => if bytesLe (segFileName y.name) (segFileName x.name)
               then y :: insertLogSorted x ys
               else x :: y :: ys

/-- `logs.sort_by(|a, b| a.name.to_string_lossy().cmp(&b.name.to_string_lossy()))`
(engine.rs line 41), as an insertion sort: lexicographic on the path string,
NOT numeric on the stem.  Both are stable sorts, and on distinct names every
correct sort for this order gives the same list. -/
def sortLogsByPath (files : List Log) : List Log :=
  files.foldl (fun acc lg => insertLogSorted lg acc) []

/-- `Engine::new(dir)`: `files` are the `.log` files found in the directory.
One `Map::new` is pushed per file, the segment list is sorted by path string,
`rebuild` replays every segment into its index, and if no segment exists one
empty segment is grown.  (`rebuild`'s record/key counts are only logged.) -/
def Engine.new (files : List Log) : Engine :=
  if (sortLogsByPath files).isEmpty then
    (Engine.mk ((sortLogsByPath files).map (fun lg => Map.load_from_log Map.new lg))
      (sortLogsByPath files) LOG_SIZE_LIMIT).grow
  else
    Engine.mk ((sortLogsByPath files).map (fun lg => Map.load_from_log Map.new lg))
      (sortLogsByPath files) LOG_SIZE_LIMIT

/-- One REPL-level operation against the engine. -/
inductive Op
  | set (key value : Bytes)
  | del (key : Bytes)

/-- Dispatch one operation. -/
def applyOp (e : Engine) : Op → Engine
  | .set k v => e.set k v
  | .del k => e.del k

/-- Run a sequence of operations on an engine opened on an empty directory. -/
def run (ops : List Op) : Engine := ops.foldl applyOp (Engine.new [])

/-- Keys and values in Rust are `Vec<u8>`, whose length always fits in `u64`;
the model states this side condition explicitly where an operation's record
must round-trip through the 8-byte length prefixes. -/
def opOK : Op → Bool
  | .set k v => decide (k.length < 2 ^ 64) && decide (v.length < 2 ^ 64)
  | .del k => decide (k.length < 2 ^ 64)

/-- The keys of a map, in iteration order. -/
def Map.keys (m : Map) : List Bytes := m.inner.map Prod.fst

/-- The entry `LogIterator` produces for a record `(k, v)` appended at the end
of a file that previously held `data`. -/
def recEntry (data k v : Bytes) : LogEntry :=
  ⟨⟨data.length + 8, k.length, k⟩, ⟨data.length + 8 + k.length + 8, v.length, v⟩⟩

/-- The largest numeric segment name an engine currently owns. -/
def maxName (logs : List Log) : Nat := logs.foldl (fun a lg => max a lg.name) 0

/-- A segment file's contents are well formed when they are a concatenation
of records whose key and value lengths fit in `u64` (`Vec<u8>` lengths always
do).  Every file the engine writes is of this shape. -/
inductive WFLog : Bytes → Prop
  | nil : WFLog []
  | snoc {data k v : Bytes} : WFLog data → k.length < 2 ^ 64 → v.length < 2 ^ 64 →
      WFLog (data ++ encodeRecord k v)

/-- Two indexes agree at a key when both are absent, or both present with
equal locations, or both present with tombstones (the engine's in-memory
tombstone sentinel and the rebuilt `(offset, 0)` location differ only in
their irrelevant offset). -/
def LocEquiv : Option Location → Option Location → Prop
  | none, none => True
  | some a, some b => a = b ∨ (a.is_tombstone = true ∧ b.is_tombstone = true)
  | _, _ => False

/-- Pointwise agreement of two indexes in the sense of `LocEquiv`. -/
def MapEquiv (m r : Map) : Prop := ∀ k, LocEquiv (m.get k) (r.get k)

/-- The engine invariant: at least one segment exists, and position by
position the in-memory index is `LocEquiv`-equal to the index rebuilt from
its (well-formed) segment file.  (`Forall₂` forces
`maps.length = logs.length`.) -/
def EngineInv (e : Engine) : Prop :=
  e.logs ≠ []
  ∧ List.Forall₂ (fun m lg => WFLog lg.data ∧ MapEquiv m (loadBytes Map.new lg.data))
      e.maps e.logs

/-- The invariant of the merge fold: the result index is exactly the index
rebuilt from the result file, which stays well formed. -/
def MergedOK (p : Map × Log) : Prop :=
  WFLog p.2.data ∧ p.1 = loadBytes Map.new p.2.data

/-- The keys of the records a segment file holds, in file order. -/
def recordKeys (data : Bytes) : List Bytes :=
  match parse data with
  | some es => es.map (fun e => e.key.value)
  | none => []

/-- How many records for key `k` a segment file holds. -/
def countRecords (data : Bytes) (k : Bytes) : Nat := (recordKeys data).count k

/-- Spec §4.4 step 3: a key is live across the pair `(s0, s1)` when the
newest of the two indexes holding it maps it to a non-tombstone location. -/
def liveInPair (r0 r1 : Map) (k : Bytes) : Bool :=
  match r1.get k with
  | some loc => !loc.is_tombstone
  | none =>
    match r0.get k with
    | some loc => !loc.is_tombstone
    | none => false

/-- The merge-fold invariant for counting: the result file stays well formed,
the result index is its rebuild, and it carries exactly one record per key
its index holds. -/
def CountOK (p : Map × Log) : Prop :=
  WFLog p.2.data ∧ p.1 = loadBytes Map.new p.2.data
  ∧ ∀ k, countRecords p.2.data k = if (p.1.get k).isSome then 1 else 0

/-! ### Byte-level facts -/

theorem be8_length (n : Nat) : (be8 n).length = 8 := rfl

theorem fromBE8_be8 {n : Nat} (h : n < 2 ^ 64) : fromBE8 (be8 n) = n := by
  simp only [be8, fromBE8, List.foldl]
  omega

theorem encodeRecord_length (k v : Bytes) :
    (encodeRecord k v).length = 8 + k.length + 8 + v.length := by
  simp [encodeRecord, be8]
  omega

theorem slice_length {data : Bytes} {i n : Nat} (h : i + n ≤ data.length) :
    (slice data i n).length = n := by
  simp [slice]
  omega

theorem slice_append_of_le {data : Bytes} (ext : Bytes) {i n : Nat}
    (h : i + n ≤ data.length) : slice (data ++ ext) i n = slice data i n := by
  unfold slice
  rw [List.drop_append_of_le_length (by omega),
      List.take_append_of_le_length (by simp; omega)]

theorem slice_concat (X Y : Bytes) (n : Nat) : slice (X ++ Y) X.length n = Y.take n := by
  unfold slice
  rw [List.drop_left]

theorem slice_record1 (data k v : Bytes) :
    slice (data ++ encodeRecord k v) data.length 8 = be8 k.length := by
  rw [slice_concat]
  unfold encodeRecord
  rw [List.append_assoc, List.append_assoc,
      List.take_append_of_le_length (by rw [be8_length])]
  exact List.take_of_length_le (by rw [be8_length])

theorem slice_record2 (data k v : Bytes) :
    slice (data ++ encodeRecord k v) (data.length + 8) k.length = k := by
  have hsplit : data ++ encodeRecord k v
      = (data ++ be8 k.length) ++ (k ++ (be8 v.length ++ v)) := by
    simp [encodeRecord]
  have hlen : data.length + 8 = (data ++ be8 k.length).length := by
    simp [be8_length]
  rw [hsplit, hlen, slice_concat, List.take_append_of_le_length le_rfl]
  exact List.take_of_length_le le_rfl

theorem slice_record3 (data k v : Bytes) :
    slice (data ++ encodeRecord k v) (data.length + 8 + k.length) 8 = be8 v.length := by
  have hsplit : data ++ encodeRecord k v
      = ((data ++ be8 k.length) ++ k) ++ (be8 v.length ++ v) := by
    simp [encodeRecord]
  have hlen : data.length + 8 + k.length = ((data ++ be8 k.length) ++ k).length := by
    simp [be8_length]
    omega
  rw [hsplit, hlen, slice_concat,
      List.take_append_of_le_length (by rw [be8_length])]
  exact List.take_of_length_le (by rw [be8_length])

theorem slice_record4 (data k v : Bytes) :
    slice (data ++ encodeRecord k v) (data.length + 8 + k.length + 8) v.length = v := by
  have hsplit : data ++ encodeRecord k v
      = (((data ++ be8 k.length) ++ k) ++ be8 v.length) ++ v := by
    simp [encodeRecord]
  have hlen : data.length + 8 + k.length + 8
      = (((data ++ be8 k.length) ++ k) ++ be8 v.length).length := by
    simp [be8_length]
    omega
  rw [hsplit, hlen, slice_concat]
  exact List.take_of_length_le le_rfl

/-! ### Association-list (HashMap) facts -/

theorem assocGet_insert_self (l : List (Bytes × Location)) (k : Bytes) (v : Location) :
    assocGet k (assocInsert k v l) = some v := by
  induction l with
  | nil => simp [assocInsert, assocGet]
  | cons p rest ih =>
    by_cases h : p.1 = k
    · rcases p with ⟨k1, v1⟩
      simp only at h
      subst h
      simp [assocInsert, assocGet]
    · rcases p with ⟨k1, v1⟩
      simp only at h
      simp only [assocInsert, if_neg h, assocGet]
      exact ih

theorem assocGet_insert_ne (l : List (Bytes × Location)) {k k' : Bytes} (v : Location)
    (h : k' ≠ k) : assocGet k' (assocInsert k v l) = assocGet k' l := by
  have hne : ¬ k = k' := fun hh => h hh.symm
  induction l with
  | nil =>
    simp only [assocInsert, assocGet]
    rw [if_neg hne]
  | cons p rest ih =>
    rcases p with ⟨k1, v1⟩
    by_cases h1 : k1 = k
    · subst h1
      simp only [assocInsert, if_pos rfl, assocGet]
      rw [if_neg hne, if_neg hne]
    · simp only [assocInsert, if_neg h1, assocGet]
      by_cases h2 : k1 = k'
      · rw [if_pos h2, if_pos h2]
      · rw [if_neg h2, if_neg h2]
        exact ih

theorem Map.get_insert_self (m : Map) (k : Bytes) (v : Location) :
    (m.insert k v).get k = some v := assocGet_insert_self m.inner k v

theorem Map.get_insert_ne (m : Map) {k k' : Bytes} (v : Location) (h : k' ≠ k) :
    (m.insert k v).get k' = m.get k' := assocGet_insert_ne m.inner v h

theorem assocGet_eq_none_iff (l : List (Bytes × Location)) (k : Bytes) :
    assocGet k l = none ↔ k ∉ l.map Prod.fst := by
  induction l with
  | nil => simp [assocGet]
  | cons p rest ih =>
    simp only [assocGet, List.map_cons, List.mem_cons]
    by_cases h : p.1 = k
    · rw [if_pos h]
      simp [h]
    · rw [if_neg h, ih]
      constructor
      · intro h1 h2
        rcases h2 with h2 | h2
        · exact h h2.symm
        · exact h1 h2
      · intro h1 h2
        exact h1 (Or.inr h2)

theorem Map.get_eq_none_iff (m : Map) (k : Bytes) :
    m.get k = none ↔ k ∉ m.keys := assocGet_eq_none_iff m.inner k

theorem Map.get_isSome_iff (m : Map) (k : Bytes) :
    (m.get k).isSome = true ↔ k ∈ m.keys := by
  rcases hg : m.get k with _ | l
  · rw [Map.get_eq_none_iff] at hg
    simp [hg]
  · simp only [Option.isSome_some, true_iff]
    by_contra hk
    rw [← Map.get_eq_none_iff] at hk
    rw [hk] at hg
    cases hg

theorem Map.mem_of_get_eq_some {m : Map} {k : Bytes} {loc : Location}
    (h : m.get k = some loc) : (k, loc) ∈ m.inner := by
  obtain ⟨l⟩ := m
  simp only [Map.get] at h
  induction l with
  | nil => cases h
  | cons p rest ih =>
    simp only [assocGet] at h
    by_cases hp : p.1 = k
    · rw [if_pos hp] at h
      injection h with h
      have hpk : p = (k, loc) := by
        rcases p with ⟨k1, v1⟩
        simp only at hp h
        rw [hp, h]

      rw [hpk]
      exact List.mem_cons_self _ _
    · rw [if_neg hp] at h
      exact List.mem_cons_of_mem _ (ih h)

theorem assocInsert_keys (l : List (Bytes × Location)) (k : Bytes) (v : Location) :
    (assocInsert k v l).map Prod.fst
      = if k ∈ l.map Prod.fst then l.map Prod.fst else l.map Prod.fst ++ [k] := by
  induction l with
  | nil => simp [assocInsert]
  | cons p rest ih =>
    rcases p with ⟨k1, v1⟩
    by_cases h : k1 = k
    · subst h
      simp [assocInsert]
    · have hne : ¬ k = k1 := fun hh => h hh.symm
      simp only [assocInsert, if_neg h, List.map_cons, List.mem_cons, ih]
      by_cases hk : k ∈ rest.map Prod.fst
      · simp [hk, hne]
      · simp [hk, hne]

theorem Map.keys_insert (m : Map) (k : Bytes) (v : Location) :
    (m.insert k v).keys = if k ∈ m.keys then m.keys else m.keys ++ [k] :=
  assocInsert_keys m.inner k v

theorem Map.nodup_keys_insert {m : Map} (k : Bytes) (v : Location)
    (h : m.keys.Nodup) : (m.insert k v).keys.Nodup := by
  rw [Map.keys_insert]
  by_cases hk : k ∈ m.keys
  · simpa [hk] using h
  · simp only [hk, if_false]
    refine List.Nodup.append h (List.nodup_singleton k) ?_
    intro a ha hb
    rw [List.mem_singleton] at hb
    subst hb
    exact hk ha

/-! ### updateLast facts -/

theorem updateLast_nil (f : α → α) : updateLast f ([] : List α) = [] := rfl

theorem updateLast_concat (f : α → α) (l : List α) (a : α) :
    updateLast f (l ++ [a]) = l ++ [f a] := by
  induction l with
  | nil => rfl
  | cons b t ih =>
    cases t with
    | nil => rfl
    | cons c t' => simpa [updateLast] using ih

/-- A nonempty list splits as `init ++ [last]`. -/
theorem exists_concat_of_ne_nil {l : List α} (h : l ≠ []) :
    ∃ init last, l = init ++ [last] := by
  induction l with
  | nil => exact absurd rfl h
  | cons a t ih =>
    cases t with
    | nil => exact ⟨[], a, rfl⟩
    | cons b t' =>
      obtain ⟨init, last, heq⟩ := ih (by simp)
      exact ⟨a :: init, last, by rw [heq]; rfl⟩

theorem getLastD_concat' (l : List α) (a d : α) : (l ++ [a]).getLastD d = a :=
  List.getLastD_concat d a l

/-! ### Parser facts -/

theorem parseStep_end_iff (data : Bytes) (i : Nat) :
    parseStep data i = some none ↔ i ≥ data.length := by
  unfold parseStep
  split_ifs with h1 h2 h3 h4 h5 <;> simp [h1]

theorem recKlen_append {data : Bytes} (ext : Bytes) {i : Nat} (h : i + 8 ≤ data.length) :
    recKlen (data ++ ext) i = recKlen data i := by
  unfold recKlen
  rw [slice_append_of_le ext h]

theorem recVlen_append {data : Bytes} (ext : Bytes) {i : Nat} (hk : i + 8 ≤ data.length)
    (h : i + 8 + recKlen data i + 8 ≤ data.length) :
    recVlen (data ++ ext) i = recVlen data i := by
  unfold recVlen
  rw [recKlen_append ext hk, slice_append_of_le ext h]

theorem parseStep_entry_bounds {data : Bytes} {i : Nat} {e : LogEntry} {i' : Nat}
    (h : parseStep data i = some (some (e, i'))) :
    i < data.length
    ∧ i' = e.value.offset + e.value.len
    ∧ e.value.offset + e.value.len ≤ data.length
    ∧ i < i'
    ∧ e.value.value = slice data e.value.offset e.value.len
    ∧ e.value.len = e.value.value.length := by
  unfold parseStep at h
  split_ifs at h with h1 h2 h3 h4 h5
  · simp at h
  · rw [Option.some.injEq, Option.some.injEq, Prod.mk.injEq] at h
    obtain ⟨he, hi⟩ := h
    have hvo : e.value.offset = i + 8 + recKlen data i + 8 := by rw [← he]
    have hvl : e.value.len = recVlen data i := by rw [← he]
    have hvv : e.value.value = slice data (i + 8 + recKlen data i + 8) (recVlen data i) := by
      rw [← he]
    subst hi
    refine ⟨by omega, by omega, by omega, by omega, ?_, ?_⟩
    · rw [hvv, hvo, hvl]
    · rw [hvl, hvv, slice_length (by omega)]

theorem parseStep_append_of_entry {data : Bytes} {i : Nat} {e : LogEntry} {i' : Nat}
    (ext : Bytes) (h : parseStep data i = some (some (e, i'))) :
    parseStep (data ++ ext) i = some (some (e, i')) := by
  unfold parseStep at h ⊢
  split_ifs at h with h1 h2 h3 h4 h5
  · simp at h
  · rw [recKlen_append ext (by omega)]
    rw [recVlen_append ext (by omega) (by omega)]
    rw [slice_append_of_le ext (by omega)]
    rw [slice_append_of_le ext (by omega)]
    rw [if_neg (by simp only [List.length_append]; omega),
        if_neg (by simp only [List.length_append]; omega),
        if_neg (by simp only [List.length_append]; omega),
        if_neg (by simp only [List.length_append]; omega),
        if_neg (by simp only [List.length_append]; omega)]
    exact h

theorem parseStep_append_record (data k v : Bytes)
    (hk : k.length < 2 ^ 64) (hv : v.length < 2 ^ 64) :
    parseStep (data ++ encodeRecord k v) data.length
      = some (some (recEntry data k v, data.length + 8 + k.length + 8 + v.length)) := by
  have hklen : recKlen (data ++ encodeRecord k v) data.length = k.length := by
    unfold recKlen
    rw [slice_record1, fromBE8_be8 hk]
  have hvlen : recVlen (data ++ encodeRecord k v) data.length = v.length := by
    unfold recVlen
    rw [hklen, slice_record3, fromBE8_be8 hv]
  unfold parseStep recEntry
  rw [hklen, hvlen, slice_record2, slice_record4]
  rw [if_neg (by simp only [List.length_append, encodeRecord_length]; omega),
      if_neg (by simp only [List.length_append, encodeRecord_length]; omega),
      if_neg (by simp only [List.length_append, encodeRecord_length]; omega),
      if_neg (by simp only [List.length_append, encodeRecord_length]; omega),
      if_neg (by simp only [List.length_append, encodeRecord_length]; omega)]

theorem parseFrom_mono {f : Nat} :
    ∀ {f' : Nat} {data : Bytes} {i : Nat} {es : List LogEntry},
    parseFrom f data i = some es → f ≤ f' → parseFrom f' data i = some es := by
  induction f with
  | zero => intro f' data i es h _; cases h
  | succ f ih =>
    intro f' data i es h hle
    obtain ⟨f'', rfl⟩ : ∃ f'', f' = f'' + 1 := ⟨f' - 1, by omega⟩
    rw [parseFrom] at h ⊢
    rcases hs : parseStep data i with _ | e?
    · simp only [hs] at h
      cases h
    · rcases e? with _ | ⟨e, i'⟩
      · simp only [hs] at h ⊢
        exact h
      · simp only [hs] at h ⊢
        rcases hrec : parseFrom f data i' with _ | es'
        · simp only [hrec] at h
          cases h
        · simp only [hrec] at h
          simp only [ih hrec (by omega : f ≤ f'')]
          exact h

theorem parseFrom_bounds {f : Nat} :
    ∀ {data : Bytes} {i : Nat} {es : List LogEntry},
    parseFrom f data i = some es → ∀ e ∈ es,
      e.value.offset + e.value.len ≤ data.length
      ∧ e.value.value = slice data e.value.offset e.value.len
      ∧ e.value.len = e.value.value.length := by
  induction f with
  | zero => intro data i es h; cases h
  | succ f ih =>
    intro data i es h e he
    rw [parseFrom] at h
    rcases hs : parseStep data i with _ | e?
    · simp only [hs] at h
      cases h
    · rcases e? with _ | ⟨e0, i'⟩
      · simp only [hs] at h
        injection h with h
        subst h
        cases he
      · simp only [hs] at h
        rcases hrec : parseFrom f data i' with _ | es'
        · simp only [hrec] at h
          cases h
        · simp only [hrec] at h
          injection h with h
          subst h
          rcases List.mem_cons.mp he with heq | he2
          · subst heq
            obtain ⟨_, _, hb, _, hsl, hlen⟩ := parseStep_entry_bounds hs
            exact ⟨hb, hsl, hlen⟩
          · exact ih hrec e he2

theorem parseFrom_append {f : Nat} {k v : Bytes}
    (hk : k.length < 2 ^ 64) (hv : v.length < 2 ^ 64) :
    ∀ {data : Bytes} {i : Nat} {es : List LogEntry},
    parseFrom f data i = some es → i ≤ data.length →
    parseFrom (f + 1) (data ++ encodeRecord k v) i = some (es ++ [recEntry data k v]) := by
  induction f with
  | zero => intro data i es h _; cases h
  | succ f ih =>
    intro data i es h hi
    rw [parseFrom] at h
    rcases hs : parseStep data i with _ | e?
    · simp only [hs] at h
      cases h
    · rcases e? with _ | ⟨e, i'⟩
      · simp only [hs] at h
        injection h with h
        subst h
        have hieq : i = data.length := by
          have := (parseStep_end_iff data i).mp hs
          omega
        subst hieq
        rw [parseFrom]
        simp only [parseStep_append_record data k v hk hv]
        have hend : parseStep (data ++ encodeRecord k v)
            (data.length + 8 + k.length + 8 + v.length) = some none := by
          rw [parseStep_end_iff]
          rw [List.length_append, encodeRecord_length]
          omega
        rw [parseFrom]
        simp only [hend, List.nil_append]
      · simp only [hs] at h
        rcases hrec : parseFrom f data i' with _ | es'
        · simp only [hrec] at h
          cases h
        · simp only [hrec] at h
          injection h with h
          subst h
          obtain ⟨_, hieq, hb, _, _, _⟩ := parseStep_entry_bounds hs
          have hstep := parseStep_append_of_entry (encodeRecord k v) hs
          rw [parseFrom]
          simp only [hstep, ih hrec (by omega : i' ≤ data.length), List.cons_append]

theorem parse_nil : parse ([] : Bytes) = some [] := rfl

theorem parse_snoc {data : Bytes} {es : List LogEntry} {k v : Bytes}
    (hk : k.length < 2 ^ 64) (hv : v.length < 2 ^ 64) (h : parse data = some es) :
    parse (data ++ encodeRecord k v) = some (es ++ [recEntry data k v]) := by
  have h2 := parseFrom_append hk hv h (by omega)
  refine parseFrom_mono h2 ?_
  rw [List.length_append, encodeRecord_length]
  omega

theorem parse_bounds {data : Bytes} {es : List LogEntry} (h : parse data = some es) :
    ∀ e ∈ es, e.value.offset + e.value.len ≤ data.length
      ∧ e.value.value = slice data e.value.offset e.value.len
      ∧ e.value.len = e.value.value.length :=
  parseFrom_bounds h

/-! ### Rebuild (`load_from_log`) facts -/

theorem loadBytes_nil (m : Map) : loadBytes m [] = m := rfl

theorem loadBytes_snoc {data : Bytes} {es : List LogEntry} (m : Map) {k v : Bytes}
    (hk : k.length < 2 ^ 64) (hv : v.length < 2 ^ 64) (h : parse data = some es) :
    loadBytes m (data ++ encodeRecord k v)
      = (loadBytes m data).insert k ⟨data.length + 8 + k.length + 8, v.length⟩ := by
  unfold loadBytes
  simp only [parse_snoc hk hv h, h, List.foldl_append, List.foldl_cons, List.foldl_nil]
  rfl

theorem mem_assocInsert {l : List (Bytes × Location)} {k : Bytes} {v : Location}
    {p : Bytes × Location} (h : p ∈ assocInsert k v l) : p ∈ l ∨ p = (k, v) := by
  induction l with
  | nil =>
    simp only [assocInsert, List.mem_singleton] at h
    exact Or.inr h
  | cons q rest ih =>
    simp only [assocInsert] at h
    by_cases hq : q.1 = k
    · rw [if_pos hq] at h
      rcases List.mem_cons.mp h with h | h
      · exact Or.inr h
      · exact Or.inl (List.mem_cons_of_mem _ h)
    · rw [if_neg hq] at h
      rcases List.mem_cons.mp h with h | h
      · exact Or.inl (List.mem_cons.mpr (Or.inl h))
      · rcases ih h with h2 | h2
        · exact Or.inl (List.mem_cons_of_mem _ h2)
        · exact Or.inr h2

theorem mem_foldl_insert {es : List LogEntry} :
    ∀ {m : Map} {p : Bytes × Location},
    p ∈ (es.foldl (fun m e => m.insert e.key.value ⟨e.value.offset, e.value.len⟩) m).inner →
    p ∈ m.inner ∨ ∃ e ∈ es, p = (e.key.value, (⟨e.value.offset, e.value.len⟩ : Location)) := by
  induction es with
  | nil =>
    intro m p h
    exact Or.inl h
  | cons e0 rest ih =>
    intro m p h
    rw [List.foldl_cons] at h
    rcases ih h with h2 | ⟨e, he, rfl⟩
    · rcases mem_assocInsert h2 with h3 | h3
      · exact Or.inl h3
      · exact Or.inr ⟨e0, List.mem_cons_self _ _, h3⟩
    · exact Or.inr ⟨e, List.mem_cons_of_mem _ he, rfl⟩

theorem loadBytes_new_mem {data : Bytes} {p : Bytes × Location}
    (hp : p ∈ (loadBytes Map.new data).inner) :
    ∃ es e, parse data = some es ∧ e ∈ es
      ∧ p = (e.key.value, (⟨e.value.offset, e.value.len⟩ : Location)) := by
  unfold loadBytes at hp
  rcases hps : parse data with _ | es
  · rw [hps] at hp
    cases hp
  · rw [hps] at hp
    rcases mem_foldl_insert hp with h | ⟨e, he, rfl⟩
    · cases h
    · exact ⟨es, e, rfl, he, rfl⟩

theorem foldl_insert_nodup {es : List LogEntry} :
    ∀ {m : Map}, m.keys.Nodup →
    (es.foldl (fun m e => m.insert e.key.value ⟨e.value.offset, e.value.len⟩) m).keys.Nodup := by
  induction es with
  | nil => intro m h; exact h
  | cons e rest ih =>
    intro m h
    rw [List.foldl_cons]
    exact ih (Map.nodup_keys_insert _ _ h)

theorem loadBytes_new_nodup (data : Bytes) : (loadBytes Map.new data).keys.Nodup := by
  unfold loadBytes
  rcases parse data with _ | es
  · exact List.nodup_nil
  · exact foldl_insert_nodup List.nodup_nil

/-! ### Engine phase plumbing -/

theorem updateLast_length (f : α → α) (l : List α) : (updateLast f l).length = l.length := by
  induction l with
  | nil => rfl
  | cons a t ih =>
    cases t with
    | nil => rfl
    | cons b t' => simpa [updateLast] using ih

theorem maps_ne_nil {e : Engine} (hlen : e.maps.length = e.logs.length)
    (hne : e.logs ≠ []) : e.maps ≠ [] := by
  intro hnil
  rw [hnil] at hlen
  exact hne (List.length_eq_zero.mp hlen.symm)

theorem grow_len {e : Engine} (hlen : e.maps.length = e.logs.length) :
    e.grow.maps.length = e.grow.logs.length := by
  simp [Engine.grow, hlen]

theorem grow_ne_nil (e : Engine) : e.grow.logs ≠ [] := by
  simp [Engine.grow]

theorem growPhase_len {e : Engine} (hlen : e.maps.length = e.logs.length) :
    e.growPhase.maps.length = e.growPhase.logs.length := by
  unfold Engine.growPhase
  split_ifs
  · exact grow_len hlen
  · exact hlen

theorem growPhase_ne_nil {e : Engine} (hne : e.logs ≠ []) : e.growPhase.logs ≠ [] := by
  unfold Engine.growPhase
  split_ifs
  · exact grow_ne_nil e
  · exact hne

theorem mergePhase_len {e : Engine} (hlen : e.maps.length = e.logs.length) :
    e.mergePhase.maps.length = e.mergePhase.logs.length := by
  unfold Engine.mergePhase
  split_ifs with hgt
  · simp [hlen]
  · exact hlen

theorem mergePhase_ne_nil {e : Engine} (hne : e.logs ≠ []) : e.mergePhase.logs ≠ [] := by
  unfold Engine.mergePhase
  split_ifs with hgt
  · simp
  · exact hne

theorem appendPhase_len {e : Engine} (hlen : e.maps.length = e.logs.length) (k v : Bytes) :
    (e.appendPhase k v).maps.length = (e.appendPhase k v).logs.length := by
  simp [Engine.appendPhase, updateLast_length, hlen]

theorem appendPhase_ne_nil {e : Engine} (hne : e.logs ≠ []) (k v : Bytes) :
    (e.appendPhase k v).logs ≠ [] := by
  simp only [Engine.appendPhase]
  intro hnil
  apply hne
  have := updateLast_length (fun lg => (lg.append k v).1) e.logs
  rw [hnil] at this
  exact List.length_eq_zero.mp this.symm

theorem set_len {e : Engine} (hlen : e.maps.length = e.logs.length) (k v : Bytes) :
    (e.set k v).maps.length = (e.set k v).logs.length :=
  appendPhase_len (mergePhase_len (growPhase_len hlen)) k v

theorem set_ne_nil {e : Engine} (hne : e.logs ≠ []) (k v : Bytes) :
    (e.set k v).logs ≠ [] :=
  appendPhase_ne_nil (mergePhase_ne_nil (growPhase_ne_nil hne)) k v

/-- After inserting `loc` for `k` into the newest index (and doing anything to
the newest segment), `get`'s scan is decided by the newest pair: a tombstone
yields `none`, otherwise the read of `loc` from the updated newest segment. -/
theorem scan_after_update (maps : List Map) (logs : List Log) (f : Log → Log)
    (hlen : maps.length = logs.length) (hne : logs ≠ []) (k : Bytes) (loc : Location) :
    scanNewest (((updateLast (fun m => m.insert k loc) maps).zip (updateLast f logs)).reverse) k
      = if loc.is_tombstone then none
        else (f (logs.getLastD ⟨0, []⟩)).read loc.offset loc.len := by
  have hmne : maps ≠ [] := by
    intro hnil
    rw [hnil] at hlen
    exact hne (List.length_eq_zero.mp hlen.symm)
  obtain ⟨minit, mlast, rfl⟩ := exists_concat_of_ne_nil hmne
  obtain ⟨linit, llast, rfl⟩ := exists_concat_of_ne_nil hne
  have hinit : minit.length = linit.length := by
    simp only [List.length_append, List.length_cons, List.length_nil] at hlen
    omega
  rw [updateLast_concat, updateLast_concat, List.zip_append hinit, List.reverse_append]
  simp only [List.zip_cons_cons, List.zip_nil_right, List.reverse_cons, List.reverse_nil,
    List.nil_append, List.singleton_append]
  simp only [scanNewest, Map.get_insert_self]
  rw [getLastD_concat']

/-- `Engine::get` right after step 3 of `Engine::set`: the key is found in the
newest index; an empty value was recorded as a length-0 location, hence reads
as absent, and any other value reads back exactly. -/
theorem appendPhase_get_self (e : Engine) (k v : Bytes)
    (hlen : e.maps.length = e.logs.length) (hne : e.logs ≠ []) :
    (e.appendPhase k v).get k = if v = [] then none else some v := by
  unfold Engine.appendPhase Engine.get
  simp only
  rw [scan_after_update e.maps e.logs _ hlen hne k _]
  by_cases hv : v = []
  · subst hv
    simp [Location.is_tombstone]
  · have hvlen : v.length ≠ 0 := fun h => hv (List.length_eq_zero.mp h)
    rw [if_neg hv, if_neg (by simp [Location.is_tombstone, hvlen])]
    unfold lastLog Log.append Log.read
    simp only
    rw [if_pos (by simp [encodeRecord_length, Log.size]; omega)]
    rw [Log.size]
    rw [slice_record4]

/-- `Engine::del` on a key `get` reports absent is a no-op. -/
theorem del_of_get_none {e : Engine} {k : Bytes} (h : e.get k = none) : e.del k = e := by
  unfold Engine.del
  simp only [h]

/-- `Engine::del` on a present key inserts the tombstone sentinel in the
newest index, so a following `get` is absent. -/
theorem del_get_self (e : Engine) (k : Bytes)
    (hlen : e.maps.length = e.logs.length) (hne : e.logs ≠ []) {w : Bytes}
    (h : e.get k = some w) : (e.del k).get k = none := by
  unfold Engine.del
  simp only [h]
  unfold Engine.get
  simp only
  rw [scan_after_update e.maps e.logs _ hlen hne k _]
  simp [Location.tombstone, Location.is_tombstone]

theorem del_len {e : Engine} (hlen : e.maps.length = e.logs.length) (k : Bytes) :
    (e.del k).maps.length = (e.del k).logs.length := by
  unfold Engine.del
  rcases e.get k with _ | w
  · exact hlen
  · simp [updateLast_length, hlen]

theorem del_ne_nil {e : Engine} (hne : e.logs ≠ []) (k : Bytes) :
    (e.del k).logs ≠ [] := by
  unfold Engine.del
  rcases e.get k with _ | w
  · exact hne
  · simp only
    intro hnil
    apply hne
    have := updateLast_length (fun lg => (lg.append k []).1) e.logs
    rw [hnil] at this
    exact List.length_eq_zero.mp this.symm

theorem set_get_self (e : Engine) (k v : Bytes)
    (hlen : e.maps.length = e.logs.length) (hne : e.logs ≠ []) :
    (e.set k v).get k = if v = [] then none else some v :=
  appendPhase_get_self _ k v (mergePhase_len (growPhase_len hlen))
    (mergePhase_ne_nil (growPhase_ne_nil hne))

/-! ### Claims C1, C5, C6, C9 -/

/-- C1: for every key `k` and non-empty value `v`, `set(k, v)` followed
immediately by `get(k)` on the same engine returns `Some(v)`.  The two side
conditions hold of every engine the code can build: the index and segment
lists always have equal length and there is always at least one segment. -/
theorem set_get_roundtrip (e : Engine) (k v : Bytes)
    (hlen : e.maps.length = e.logs.length) (hne : e.logs ≠ []) (hv : v ≠ []) :
    (e.set k v).get k = some v := by
  rw [set_get_self e k v hlen hne, if_neg hv]

theorem set_get_roundtrip_witness :
    (Engine.new []).maps.length = (Engine.new []).logs.length
    ∧ (Engine.new []).logs ≠ []
    ∧ ([2, 3] : Bytes) ≠ []
    ∧ ((Engine.new []).set [1] [2, 3]).get [1] = some [2, 3] :=
  ⟨by decide, by decide, by decide,
   set_get_roundtrip (Engine.new []) [1] [2, 3] (by decide) (by decide) (by decide)⟩

/-- C5: `set(k, v1)` then `set(k, v2)` then `get(k)` returns `v2` for every
engine (in particular whether or not a rotation, and hence a segment split,
happens between the two writes): `get` scans newest-to-oldest and the newest
index holds `v2`'s location. -/
theorem overwrite_get_newest (e : Engine) (k v1 v2 : Bytes)
    (hlen : e.maps.length = e.logs.length) (hne : e.logs ≠ []) (hv2 : v2 ≠ []) :
    ((e.set k v1).set k v2).get k = some v2 := by
  rw [set_get_self _ k v2 (set_len hlen k v1) (set_ne_nil hne k v1), if_neg hv2]

theorem overwrite_get_newest_witness :
    (Engine.new []).maps.length = (Engine.new []).logs.length
    ∧ (Engine.new []).logs ≠ []
    ∧ ([4, 5] : Bytes) ≠ []
    ∧ (((Engine.new []).set [1] [2, 3]).set [1] [4, 5]).get [1] = some [4, 5] :=
  ⟨by decide, by decide, by decide,
   overwrite_get_newest (Engine.new []) [1] [2, 3] [4, 5] (by decide) (by decide) (by decide)⟩

/-- C6: `set(k, v)` then `del(k)` then `get(k)` is absent (for a non-empty
`v`, `del` finds the key and appends a tombstone; for an empty `v` the key
already reads as absent and `del` is a no-op); and `del` of a key that `get`
reports absent is a no-op: it returns the engine unchanged (appending
nothing, modifying no index, and raising no error). -/
theorem del_after_set_absent (e : Engine) (k v k' : Bytes)
    (hlen : e.maps.length = e.logs.length) (hne : e.logs ≠ [])
    (hgone : e.get k' = none) :
    (((e.set k v).del k).get k = none) ∧ e.del k' = e := by
  constructor
  · by_cases hv : v = []
    · subst hv
      have hg : (e.set k []).get k = none := by
        rw [set_get_self e k [] hlen hne]
        simp
      rw [del_of_get_none hg]
      exact hg
    · have hg : (e.set k v).get k = some v := by
        rw [set_get_self e k v hlen hne, if_neg hv]
      exact del_get_self _ k (set_len hlen k v) (set_ne_nil hne k v) hg
  · exact del_of_get_none hgone

theorem del_after_set_absent_witness :
    (Engine.new []).maps.length = (Engine.new []).logs.length
    ∧ (Engine.new []).logs ≠ []
    ∧ (Engine.new []).get [9] = none
    ∧ ((((Engine.new []).set [1] [2, 3]).del [1]).get [1] = none)
    ∧ (Engine.new []).del [9] = Engine.new [] :=
  ⟨by decide, by decide, by decide,
   (del_after_set_absent (Engine.new []) [1] [2, 3] [9] (by decide) (by decide) (by decide)).1,
   (del_after_set_absent (Engine.new []) [1] [2, 3] [9] (by decide) (by decide) (by decide)).2⟩

/-- C9: `set(k, v)` with the empty value makes a following `get(k)` return
`None`: the index entry recorded has length 0, which `is_tombstone`
classifies as a tombstone, so at the public interface an empty-value `set` is
indistinguishable from a deletion. -/
theorem empty_value_set_get_none (e : Engine) (k : Bytes)
    (hlen : e.maps.length = e.logs.length) (hne : e.logs ≠ []) :
    (e.set k []).get k = none := by
  rw [set_get_self e k [] hlen hne]
  simp

theorem empty_value_set_get_none_witness :
    (Engine.new []).maps.length = (Engine.new []).logs.length
    ∧ (Engine.new []).logs ≠ []
    ∧ ((Engine.new []).set [1] []).get [1] = none :=
  ⟨by decide, by decide,
   empty_value_set_get_none (Engine.new []) [1] (by decide) (by decide)⟩

/-! ### Claim C4 -/

/-- C4: contrary to the specified ascending numeric order, `Engine::new`
sorts segments by lexicographic comparison of path strings
(`to_string_lossy`), so a directory holding segments `9.log` and `10.log` is
loaded with `10` ordered before `9` — the chronological (and claimed) order
would put `9` first.  This breaks spec invariant I4 (newest at the tail) for
any directory containing a two-digit segment name. -/
theorem engine_new_sort_lexicographic :
    (Engine.new [⟨9, []⟩, ⟨10, []⟩]).logs = [⟨10, []⟩, ⟨9, []⟩]
    ∧ (Engine.new [⟨9, []⟩, ⟨10, []⟩]).logs ≠ [⟨9, []⟩, ⟨10, []⟩] := by
  constructor
  · decide
  · decide

/-! ### Claim C8 -/

/-- C8 (counterexample): rebuilding from a file holding the single record
`([1], [])` (a zero-length value) inserts `Location { offset := 17, len := 0 }`
— `17` is the byte offset of the (empty) value in the file — and not the
tombstone sentinel `(offset = 0, len = 0)` the claim names. -/
theorem rebuild_tombstone_sentinel_cex :
    (loadBytes Map.new (encodeRecord [1] [])).get [1] = some ⟨17, 0⟩
    ∧ Location.tombstone = ⟨0, 0⟩
    ∧ ((17 : Nat), (0 : Nat)) ≠ ((0 : Nat), (0 : Nat)) := by
  refine ⟨by decide, rfl, by decide⟩

/-- C8 (amended): index rebuild replays the records in file order, the last
record for a key determining that key's entry; for a record with a
zero-length value it inserts `Location::new(value.offset, 0)` — a location
whose length is 0, which `is_tombstone` classifies as a tombstone, but whose
offset is the value's position in the file, not the `(0, 0)` sentinel. -/
theorem rebuild_replay_last_wins (m : Map) (data : Bytes) (k v : Bytes)
    (hp : (parse data).isSome = true)
    (hk : k.length < 2 ^ 64) (hv : v.length < 2 ^ 64) :
    loadBytes m (data ++ encodeRecord k v)
        = (loadBytes m data).insert k ⟨data.length + 8 + k.length + 8, v.length⟩
    ∧ (loadBytes m (data ++ encodeRecord k v)).get k
        = some ⟨data.length + 8 + k.length + 8, v.length⟩
    ∧ (v = [] → Location.is_tombstone ⟨data.length + 8 + k.length + 8, v.length⟩ = true) := by
  obtain ⟨es, hes⟩ := Option.isSome_iff_exists.mp hp
  have h1 := loadBytes_snoc m hk hv hes
  refine ⟨h1, ?_, ?_⟩
  · rw [h1, Map.get_insert_self]
  · intro hveq
    subst hveq
    rfl

/-! ### Claim C7 -/

theorem getLast?_drop (l : List α) (n : Nat) (h : n < l.length) :
    (l.drop n).getLast? = l.getLast? := by
  induction n generalizing l with
  | zero => rfl
  | succ n ih =>
    cases l with
    | nil => simp at h
    | cons a t =>
      rw [List.drop_succ_cons, ih t (by simp at h; omega)]
      cases t with
      | nil => simp at h
      | cons b t' => rw [List.getLast?_cons_cons]

theorem getLastD_cons_drop2 (l : List α) (x d : α) (h : 2 < l.length) :
    (x :: l.drop 2).getLastD d = l.getLastD d := by
  rw [List.getLastD_eq_getLast?, List.getLastD_eq_getLast?]
  cases hd : l.drop 2 with
  | nil =>
    rw [List.drop_eq_nil_iff] at hd
    omega
  | cons b t =>
    rw [List.getLast?_cons_cons, ← hd, getLast?_drop l 2 (by omega)]

theorem lastLog_mergePhase (e : Engine) : lastLog e.mergePhase = lastLog e := by
  unfold Engine.mergePhase
  split_ifs with hgt
  · unfold lastLog
    simp only
    exact getLastD_cons_drop2 e.logs _ _ hgt
  · rfl

theorem lastLog_appendPhase (e : Engine) (hne : e.logs ≠ []) (k v : Bytes) :
    lastLog (e.appendPhase k v) = ((lastLog e).append k v).1 := by
  obtain ⟨linit, llast, hl⟩ := exists_concat_of_ne_nil hne
  unfold Engine.appendPhase lastLog
  simp only
  rw [hl, updateLast_concat, getLastD_concat', getLastD_concat']

/-- C7: a `set` arriving when the active segment's size has reached the
36-byte threshold first rotates: `grow` adds exactly one segment — named one
more than the maximum (= last, since names ascend with position) existing
numeric name — with a fresh empty index, at the tail; and that new segment is
the active one that receives this write (the appended record is its entire
contents afterwards, merging not touching the newest segment). -/
theorem rotation_on_threshold (e : Engine) (k v : Bytes)
    (hlen : e.maps.length = e.logs.length) (hne : e.logs ≠ [])
    (hmax : (lastLog e).name = maxName e.logs)
    (hlim : e.log_limit_bytes = 36)
    (hsize : (lastLog e).size ≥ 36) :
    e.growPhase.logs.length = e.logs.length + 1
    ∧ (lastLog e.growPhase).name = maxName e.logs + 1
    ∧ (lastLog e.growPhase).data = []
    ∧ e.growPhase.maps.getLastD Map.new = Map.new
    ∧ (lastLog (e.set k v)).name = maxName e.logs + 1
    ∧ (lastLog (e.set k v)).data = encodeRecord k v := by
  have hgp : e.growPhase = e.grow := by
    unfold Engine.growPhase
    rw [if_pos (by omega)]
  have hnext : nextName e.logs = maxName e.logs + 1 := by
    obtain ⟨linit, llast, hl⟩ := exists_concat_of_ne_nil hne
    have hg : e.logs.getLast? = some llast := by
      rw [hl]
      exact List.getLast?_concat _
    have hname : llast.name = maxName e.logs := by
      rw [← hmax]
      unfold lastLog
      rw [hl, getLastD_concat']
    unfold nextName
    simp only [hg]
    rw [hname]
  have hll_grow : lastLog e.grow = ⟨nextName e.logs, []⟩ := by
    unfold lastLog Engine.grow
    simp only
    exact getLastD_concat' _ _ _
  have hmid : lastLog (e.growPhase.mergePhase) = ⟨maxName e.logs + 1, []⟩ := by
    rw [lastLog_mergePhase, hgp, hll_grow, hnext]
  refine ⟨?_, ?_, ?_, ?_, ?_, ?_⟩
  · rw [hgp]
    simp [Engine.grow]
  · rw [hgp, hll_grow, hnext]
  · rw [hgp, hll_grow]
  · rw [hgp]
    unfold Engine.grow
    simp only
    exact getLastD_concat' _ _ _
  · show (lastLog ((e.growPhase.mergePhase).appendPhase k v)).name = _
    rw [lastLog_appendPhase _ (mergePhase_ne_nil (growPhase_ne_nil hne)) k v, hmid]
    rfl
  · show (lastLog ((e.growPhase.mergePhase).appendPhase k v)).data = _
    rw [lastLog_appendPhase _ (mergePhase_ne_nil (growPhase_ne_nil hne)) k v, hmid]
    simp [Log.append]

theorem rotation_on_threshold_witness :
    (((Engine.new []).set [1] [2]).set [3] [4]).maps.length
        = (((Engine.new []).set [1] [2]).set [3] [4]).logs.length
    ∧ (((Engine.new []).set [1] [2]).set [3] [4]).logs ≠ []
    ∧ (lastLog (((Engine.new []).set [1] [2]).set [3] [4])).name
        = maxName (((Engine.new []).set [1] [2]).set [3] [4]).logs
    ∧ (((Engine.new []).set [1] [2]).set [3] [4]).log_limit_bytes = 36
    ∧ (lastLog (((Engine.new []).set [1] [2]).set [3] [4])).size ≥ 36
    ∧ ((((Engine.new []).set [1] [2]).set [3] [4]).growPhase.logs.length
        = (((Engine.new []).set [1] [2]).set [3] [4]).logs.length + 1
      ∧ (lastLog (((Engine.new []).set [1] [2]).set [3] [4]).growPhase).name
          = maxName (((Engine.new []).set [1] [2]).set [3] [4]).logs + 1
      ∧ (lastLog (((Engine.new []).set [1] [2]).set [3] [4]).growPhase).data = []
      ∧ (((Engine.new []).set [1] [2]).set [3] [4]).growPhase.maps.getLastD Map.new = Map.new
      ∧ (lastLog ((((Engine.new []).set [1] [2]).set [3] [4]).set [5] [6])).name
          = maxName (((Engine.new []).set [1] [2]).set [3] [4]).logs + 1
      ∧ (lastLog ((((Engine.new []).set [1] [2]).set [3] [4]).set [5] [6])).data
          = encodeRecord [5] [6]) :=
  ⟨by decide, by decide, by decide, by decide, by decide,
   rotation_on_threshold (((Engine.new []).set [1] [2]).set [3] [4]) [5] [6]
     (by decide) (by decide) (by decide) (by decide) (by decide)⟩

/-! ### Well-formed files and the engine invariant -/

theorem WFLog_parse {data : Bytes} (h : WFLog data) :
    ∃ es, parse data = some es
      ∧ ∀ e ∈ es, e.key.value.length < 2 ^ 64 ∧ e.value.len < 2 ^ 64 := by
  induction h with
  | nil => exact ⟨[], parse_nil, by simp⟩
  | snoc hw hk hv ih =>
    obtain ⟨es, hes, hprops⟩ := ih
    refine ⟨es ++ [recEntry _ _ _], parse_snoc hk hv hes, ?_⟩
    intro e he
    rcases List.mem_append.mp he with he | he
    · exact hprops e he
    · rw [List.mem_singleton] at he
      subst he
      exact ⟨by simpa [recEntry] using hk, by simpa [recEntry] using hv⟩

theorem WFLog_parse_isSome {data : Bytes} (h : WFLog data) : (parse data).isSome = true := by
  obtain ⟨es, hes, _⟩ := WFLog_parse h
  rw [hes]
  rfl

/-- Every entry of an index rebuilt from a well-formed file has a small key,
a small length, and an in-bounds location. -/
theorem rebuild_mem_props {data : Bytes} (h : WFLog data) {k : Bytes} {loc : Location}
    (hmem : (k, loc) ∈ (loadBytes Map.new data).inner) :
    k.length < 2 ^ 64 ∧ loc.len < 2 ^ 64 ∧ loc.offset + loc.len ≤ data.length := by
  obtain ⟨es, e, hes, he, heq⟩ := loadBytes_new_mem hmem
  obtain ⟨es', hes', hprops⟩ := WFLog_parse h
  rw [hes] at hes'
  injection hes' with hes'
  subst hes'
  obtain ⟨hk, hl⟩ := hprops e he
  obtain ⟨hb, _, _⟩ := parse_bounds hes e he
  injection heq with heq1 heq2
  subst heq1
  subst heq2
  exact ⟨hk, hl, hb⟩

theorem assocGet_eq_some_of_mem {l : List (Bytes × Location)}
    (hnd : (l.map Prod.fst).Nodup) {k : Bytes} {loc : Location}
    (h : (k, loc) ∈ l) : assocGet k l = some loc := by
  induction l with
  | nil => cases h
  | cons q rest ih =>
    rw [List.map_cons, List.nodup_cons] at hnd
    rcases List.mem_cons.mp h with h | h
    · rw [← h]
      simp [assocGet]
    · have hq : ¬ q.1 = k := by
        intro hqk
        apply hnd.1
        rw [hqk]
        exact List.mem_map.mpr ⟨(k, loc), h, rfl⟩
      simp only [assocGet, if_neg hq]
      exact ih hnd.2 h

theorem Map.get_eq_some_of_mem {m : Map} (hnd : m.keys.Nodup) {k : Bytes} {loc : Location}
    (h : (k, loc) ∈ m.inner) : m.get k = some loc :=
  assocGet_eq_some_of_mem hnd h

theorem mapEquiv_refl (m : Map) : MapEquiv m m := by
  intro k
  rcases m.get k with _ | l
  · exact True.intro
  · exact Or.inl rfl

theorem mapEquiv_insert {m r : Map} (h : MapEquiv m r) (k : Bytes) {a b : Location}
    (hab : a = b ∨ (a.is_tombstone = true ∧ b.is_tombstone = true)) :
    MapEquiv (m.insert k a) (r.insert k b) := by
  intro k'
  by_cases hk : k' = k
  · subst hk
    rw [Map.get_insert_self, Map.get_insert_self]
    exact hab
  · rw [Map.get_insert_ne _ _ hk, Map.get_insert_ne _ _ hk]
    exact h k'

theorem EngineInv.len {e : Engine} (h : EngineInv e) : e.maps.length = e.logs.length :=
  List.Forall₂.length_eq h.2

theorem forall₂_concat_inv {R : Map → Log → Prop} :
    ∀ {l₁ : List Map} {l₂ : List Log} {a : Map} {b : Log},
    List.Forall₂ R (l₁ ++ [a]) (l₂ ++ [b]) → l₁.length = l₂.length →
    List.Forall₂ R l₁ l₂ ∧ R a b := by
  intro l₁
  induction l₁ with
  | nil =>
    intro l₂ a b h hlen
    cases l₂ with
    | nil =>
      rcases h with _ | ⟨hab, _⟩
      exact ⟨List.Forall₂.nil, hab⟩
    | cons c t => simp at hlen
  | cons x t ih =>
    intro l₂ a b h hlen
    cases l₂ with
    | nil => simp at hlen
    | cons y t₂ =>
      rcases h with _ | ⟨hxy, htail⟩
      obtain ⟨hf, hab⟩ := ih htail (by simpa using hlen)
      exact ⟨List.Forall₂.cons hxy hf, hab⟩

theorem forall₂_append2 {R : Map → Log → Prop} {l₁ u₁ : List Map} {l₂ u₂ : List Log}
    (h1 : List.Forall₂ R l₁ l₂) (h2 : List.Forall₂ R u₁ u₂) :
    List.Forall₂ R (l₁ ++ u₁) (l₂ ++ u₂) :=
  List.rel_append h1 h2

theorem mem_insertLogSorted {x y : Log} : ∀ {l : List Log},
    x ∈ insertLogSorted y l → x = y ∨ x ∈ l := by
  intro l
  induction l with
  | nil =>
    intro h
    rw [insertLogSorted, List.mem_singleton] at h
    exact Or.inl h
  | cons z t ih =>
    intro h
    rw [insertLogSorted] at h
    split_ifs at h
    · rcases List.mem_cons.mp h with h | h
      · exact Or.inr (List.mem_cons.mpr (Or.inl h))
      · rcases ih h with h2 | h2
        · exact Or.inl h2
        · exact Or.inr (List.mem_cons_of_mem _ h2)
    · rcases List.mem_cons.mp h with h | h
      · exact Or.inl h
      · exact Or.inr h

theorem mem_sortLogsByPath {x : Log} {segs : List Log}
    (h : x ∈ sortLogsByPath segs) : x ∈ segs := by
  unfold sortLogsByPath at h
  suffices haux : ∀ (l : List Log) (acc : List Log),
      x ∈ l.foldl (fun acc lg => insertLogSorted lg acc) acc → x ∈ acc ∨ x ∈ l by
    rcases haux segs [] h with h2 | h2
    · cases h2
    · exact h2
  intro l
  induction l with
  | nil =>
    intro acc h
    exact Or.inl h
  | cons a t ih =>
    intro acc h
    rw [List.foldl_cons] at h
    rcases ih _ h with h2 | h2
    · rcases mem_insertLogSorted h2 with h3 | h3
      · exact Or.inr (by rw [h3]; exact List.mem_cons_self _ _)
      · exact Or.inl h3
    · exact Or.inr (List.mem_cons_of_mem _ h2)

theorem forall₂_map_self {R : Map → Log → Prop} {f : Log → Map} :
    ∀ (l : List Log), (∀ x ∈ l, R (f x) x) → List.Forall₂ R (l.map f) l := by
  intro l
  induction l with
  | nil => intro _; exact List.Forall₂.nil
  | cons a t ih =>
    intro h
    exact List.Forall₂.cons (h a (List.mem_cons_self _ _))
      (ih (fun x hx => h x (List.mem_cons_of_mem _ hx)))

/-- `Engine::new` establishes the invariant for any directory of well-formed
segment files. -/
theorem inv_new {segs : List Log} (hw : ∀ lg ∈ segs, WFLog lg.data) :
    EngineInv (Engine.new segs) := by
  unfold Engine.new
  split_ifs with hemp
  · constructor
    · simp [Engine.grow]
    · simp only [Engine.grow]
      rw [List.isEmpty_iff] at hemp
      rw [hemp]
      exact List.Forall₂.cons ⟨WFLog.nil, mapEquiv_refl _⟩ List.Forall₂.nil
  · constructor
    · show sortLogsByPath segs ≠ []
      intro hnil
      rw [hnil] at hemp
      exact hemp rfl
    · exact forall₂_map_self _ (fun lg hlg =>
        ⟨hw lg (mem_sortLogsByPath hlg), mapEquiv_refl _⟩)

theorem inv_grow {e : Engine} (h : EngineInv e) : EngineInv e.grow := by
  obtain ⟨hne, hf⟩ := h
  constructor
  · exact grow_ne_nil e
  · exact forall₂_append2 hf
      (List.Forall₂.cons ⟨WFLog.nil, mapEquiv_refl _⟩ List.Forall₂.nil)

theorem inv_growPhase {e : Engine} (h : EngineInv e) : EngineInv e.growPhase := by
  unfold Engine.growPhase
  split_ifs
  · exact inv_grow h
  · exact h

theorem inv_appendPhase {e : Engine} (h : EngineInv e) {k v : Bytes}
    (hk : k.length < 2 ^ 64) (hv : v.length < 2 ^ 64) :
    EngineInv (e.appendPhase k v) := by
  obtain ⟨hne, hf⟩ := h
  have hmne : e.maps ≠ [] := maps_ne_nil (List.Forall₂.length_eq hf) hne
  obtain ⟨minit, mlast, hm⟩ := exists_concat_of_ne_nil hmne
  obtain ⟨linit, llast, hl⟩ := exists_concat_of_ne_nil hne
  have hinit : minit.length = linit.length := by
    have := List.Forall₂.length_eq hf
    rw [hm, hl] at this
    simp only [List.length_append, List.length_cons, List.length_nil] at this
    omega
  rw [hm, hl] at hf
  obtain ⟨hf0, hR⟩ := forall₂_concat_inv hf hinit
  obtain ⟨hwf, heqv⟩ := hR
  have hlastlog : lastLog e = llast := by
    unfold lastLog
    rw [hl, getLastD_concat']
  constructor
  · exact appendPhase_ne_nil hne k v
  · unfold Engine.appendPhase
    simp only
    rw [hm, hl, updateLast_concat, updateLast_concat]
    refine forall₂_append2 hf0 (List.Forall₂.cons ⟨?_, ?_⟩ List.Forall₂.nil)
    · simp only [Log.append]
      exact WFLog.snoc hwf hk hv
    · obtain ⟨es, hes, _⟩ := WFLog_parse hwf
      simp only [Log.append]
      rw [loadBytes_snoc Map.new hk hv hes]
      rw [hlastlog]
      exact mapEquiv_insert heqv k (Or.inl (by rw [Log.size]))

theorem inv_del {e : Engine} (h : EngineInv e) {k : Bytes} (hk : k.length < 2 ^ 64) :
    EngineInv (e.del k) := by
  obtain ⟨hne, hf⟩ := h
  unfold Engine.del
  rcases e.get k with _ | w
  · exact ⟨hne, hf⟩
  · simp only
    have hmne : e.maps ≠ [] := maps_ne_nil (List.Forall₂.length_eq hf) hne
    obtain ⟨minit, mlast, hm⟩ := exists_concat_of_ne_nil hmne
    obtain ⟨linit, llast, hl⟩ := exists_concat_of_ne_nil hne
    have hinit : minit.length = linit.length := by
      have := List.Forall₂.length_eq hf
      rw [hm, hl] at this
      simp only [List.length_append, List.length_cons, List.length_nil] at this
      omega
    rw [hm, hl] at hf
    obtain ⟨hf0, hR⟩ := forall₂_concat_inv hf hinit
    obtain ⟨hwf, heqv⟩ := hR
    constructor
    · show updateLast (fun lg => (lg.append k []).1) e.logs ≠ []
      rw [hl, updateLast_concat]
      simp
    · rw [hm, hl, updateLast_concat, updateLast_concat]
      refine forall₂_append2 hf0 (List.Forall₂.cons ⟨?_, ?_⟩ List.Forall₂.nil)
      · simp only [Log.append]
        exact WFLog.snoc hwf hk (by decide)
      · obtain ⟨es, hes, _⟩ := WFLog_parse hwf
        simp only [Log.append]
        rw [loadBytes_snoc Map.new hk (by decide) hes]
        exact mapEquiv_insert heqv k (Or.inr ⟨rfl, rfl⟩)

/-! ### Merge machinery -/

theorem is_tombstone_false_iff (l : Location) : l.is_tombstone = false ↔ l.len ≠ 0 := by
  simp [Location.is_tombstone]

theorem read_some_length {lg : Log} {off len : Nat} {w : Bytes}
    (h : lg.read off len = some w) : w.length = len := by
  unfold Log.read at h
  split_ifs at h with h1
  injection h with h
  rw [← h]
  exact slice_length h1

theorem read_extend {lg lg' : Log} {ext : Bytes} (hd : lg'.data = lg.data ++ ext)
    {off len : Nat} {w : Bytes} (h : lg.read off len = some w) :
    lg'.read off len = some w := by
  unfold Log.read at h ⊢
  split_ifs at h with h1
  rw [hd, if_pos (by simp only [List.length_append]; omega), slice_append_of_le ext h1]
  exact h

theorem append_read_back (lg : Log) (k w : Bytes) :
    ((lg.append k w).1).read ((lg.append k w).2) w.length = some w := by
  unfold Log.append Log.read
  simp only
  rw [if_pos (by simp only [List.length_append, encodeRecord_length]; omega)]
  rw [slice_record4]

theorem fold_extends (L : List Map) (sl : Log) (es : List (Bytes × Location)) :
    ∀ (acc : Map × Log), ∃ ext, (es.foldl (mergeEntry L sl) acc).2.data = acc.2.data ++ ext := by
  induction es with
  | nil =>
    intro acc
    exact ⟨[], by simp⟩
  | cons p rest ih =>
    intro acc
    rw [List.foldl_cons]
    obtain ⟨ext, hext⟩ := ih (mergeEntry L sl acc p)
    have hone : ∃ ext1, (mergeEntry L sl acc p).2.data = acc.2.data ++ ext1 := by
      unfold mergeEntry
      split_ifs
      · rcases sl.read p.2.offset p.2.len with _ | w
        · exact ⟨[], by simp⟩
        · exact ⟨encodeRecord p.1 w, rfl⟩
      · exact ⟨[], by simp⟩
    obtain ⟨ext1, h1⟩ := hone
    exact ⟨ext1 ++ ext, by rw [hext, h1, List.append_assoc]⟩

theorem mergeEntry_get_ne (L : List Map) (sl : Log) (acc : Map × Log) (p : Bytes × Location)
    {k : Bytes} (hk : k ≠ p.1) : (mergeEntry L sl acc p).1.get k = acc.1.get k := by
  unfold mergeEntry
  split_ifs
  · rcases sl.read p.2.offset p.2.len with _ | w
    · rfl
    · exact Map.get_insert_ne _ _ hk
  · rfl

theorem fold_get_not_mem (L : List Map) (sl : Log) {k : Bytes} :
    ∀ (es : List (Bytes × Location)) (acc : Map × Log), k ∉ es.map Prod.fst →
    (es.foldl (mergeEntry L sl) acc).1.get k = acc.1.get k := by
  intro es
  induction es with
  | nil =>
    intro acc _
    rfl
  | cons p rest ih =>
    intro acc hk
    rw [List.map_cons, List.mem_cons] at hk
    push_neg at hk
    rw [List.foldl_cons, ih _ hk.2]
    exact mergeEntry_get_ne L sl acc p hk.1

theorem fold_get_none_cond (L : List Map) (sl : Log) {k : Bytes} :
    ∀ (es : List (Bytes × Location)) (acc : Map × Log), acc.1.get k = none →
    (∀ loc, (k, loc) ∈ es → L.any (fun m => (m.get k).isSome) = true
        ∨ loc.is_tombstone = true ∨ sl.read loc.offset loc.len = none) →
    (es.foldl (mergeEntry L sl) acc).1.get k = none := by
  intro es
  induction es with
  | nil =>
    intro acc h _
    exact h
  | cons p rest ih =>
    intro acc h hcond
    rw [List.foldl_cons]
    refine ih _ ?_ (fun loc hm => hcond loc (List.mem_cons_of_mem _ hm))
    by_cases hk : k = p.1
    · subst hk
      have hcp := hcond p.2 (by
        have hpp : (p.1, p.2) = p := by
          rw [Prod.ext_iff]
          exact ⟨rfl, rfl⟩
        rw [hpp]
        exact List.mem_cons_self _ _)
      unfold mergeEntry
      rcases hcp with hov | htomb | hread
      · rw [if_neg (by simp [hov])]
        exact h
      · rw [if_neg (by simp [htomb])]
        exact h
      · split_ifs with hc
        · simp only [hread]
          exact h
        · exact h
    · rw [mergeEntry_get_ne L sl acc p hk]
      exact h

theorem fold_get_selected (L : List Map) (sl : Log) :
    ∀ (es : List (Bytes × Location)) (acc : Map × Log) {k : Bytes} {loc : Location} {w : Bytes},
    (es.map Prod.fst).Nodup → acc.1.get k = none → (k, loc) ∈ es →
    L.any (fun m => (m.get k).isSome) = false → loc.is_tombstone = false →
    sl.read loc.offset loc.len = some w →
    ∃ loc', (es.foldl (mergeEntry L sl) acc).1.get k = some loc'
      ∧ loc'.is_tombstone = false
      ∧ (es.foldl (mergeEntry L sl) acc).2.read loc'.offset loc'.len = some w := by
  intro es
  induction es with
  | nil =>
    intro acc k loc w _ _ hmem
    cases hmem
  | cons p rest ih =>
    intro acc k loc w hnd hacc hmem hov htomb hread
    rw [List.map_cons, List.nodup_cons] at hnd
    rw [List.foldl_cons]
    rcases List.mem_cons.mp hmem with heq | hmem'
    · have hpeq : p = (k, loc) := heq.symm
      subst hpeq
      have hnotin : k ∉ rest.map Prod.fst := by simpa using hnd.1
      have hstep : mergeEntry L sl acc (k, loc)
          = (acc.1.insert k ⟨(acc.2.append k w).2, w.length⟩, (acc.2.append k w).1) := by
        unfold mergeEntry
        simp only [hov, htomb]
        rw [if_pos (by decide)]
        simp only [hread]
      rw [hstep]
      have hget : ((rest.foldl (mergeEntry L sl)
            (acc.1.insert k ⟨(acc.2.append k w).2, w.length⟩, (acc.2.append k w).1)).1).get k
          = some ⟨(acc.2.append k w).2, w.length⟩ := by
        rw [fold_get_not_mem L sl rest _ hnotin]
        exact Map.get_insert_self _ _ _
      obtain ⟨ext, hext⟩ := fold_extends L sl rest
        (acc.1.insert k ⟨(acc.2.append k w).2, w.length⟩, (acc.2.append k w).1)
      refine ⟨⟨(acc.2.append k w).2, w.length⟩, hget, ?_, ?_⟩
      · rw [is_tombstone_false_iff]
        have hwl : w.length = loc.len := read_some_length hread
        rw [is_tombstone_false_iff] at htomb
        simp only
        omega
      · exact read_extend hext (append_read_back acc.2 k w)
    · have hp1 : k ≠ p.1 := by
        intro hkp
        apply hnd.1
        rw [← hkp]
        exact List.mem_map.mpr ⟨(k, loc), hmem', rfl⟩
      have hacc' : (mergeEntry L sl acc p).1.get k = none := by
        rw [mergeEntry_get_ne L sl acc p hp1]
        exact hacc
      exact ih _ hnd.2 hacc' hmem' hov htomb hread

theorem scanNewest_append (A B : List (Map × Log)) (k : Bytes) :
    scanNewest (A ++ B) k
      = if A.any (fun p => (p.1.get k).isSome) then scanNewest A k else scanNewest B k := by
  induction A with
  | nil => simp [scanNewest]
  | cons p t ih =>
    rcases p with ⟨m, lg⟩
    rcases hg : m.get k with _ | loc
    · simp only [List.cons_append, scanNewest, hg, List.any_cons, Option.isSome_none,
        Bool.false_or]
      exact ih
    · simp [List.cons_append, scanNewest, hg, List.any_cons]

theorem mergeEntry_MergedOK {L : List Map} {sl : Log} {acc : Map × Log}
    {kv : Bytes × Location} (h : MergedOK acc)
    (hkk : kv.1.length < 2 ^ 64) (hkl : kv.2.len < 2 ^ 64) :
    MergedOK (mergeEntry L sl acc kv) := by
  obtain ⟨hwf, heq⟩ := h
  unfold mergeEntry
  split_ifs with hc
  · rcases hread : sl.read kv.2.offset kv.2.len with _ | w
    · exact ⟨hwf, heq⟩
    · have hwl : w.length = kv.2.len := read_some_length hread
      constructor
      · show WFLog ((acc.2.append kv.1 w).1).data
        simp only [Log.append]
        exact WFLog.snoc hwf hkk (by rw [hwl]; exact hkl)
      · obtain ⟨es, hes, _⟩ := WFLog_parse hwf
        show acc.1.insert kv.1 _ = loadBytes Map.new ((acc.2.append kv.1 w).1).data
        simp only [Log.append]
        rw [loadBytes_snoc Map.new hkk (by rw [hwl]; exact hkl) hes, heq]
  · exact ⟨hwf, heq⟩

theorem foldl_mergeEntry_MergedOK {L : List Map} {sl : Log} :
    ∀ (es : List (Bytes × Location)) (acc : Map × Log), MergedOK acc →
    (∀ p ∈ es, p.1.length < 2 ^ 64 ∧ p.2.len < 2 ^ 64) →
    MergedOK (es.foldl (mergeEntry L sl) acc) := by
  intro es
  induction es with
  | nil =>
    intro acc h _
    exact h
  | cons p rest ih =>
    intro acc h hb
    rw [List.foldl_cons]
    refine ih _ ?_ (fun q hq => hb q (List.mem_cons_of_mem _ hq))
    obtain ⟨h1, h2⟩ := hb p (List.mem_cons_self _ _)
    exact mergeEntry_MergedOK h h1 h2

theorem mergeRun_MergedOK :
    ∀ (pairs : List (Map × Log)) (acc : Map × Log), MergedOK acc →
    (∀ q ∈ pairs, ∀ p ∈ q.1.inner, p.1.length < 2 ^ 64 ∧ p.2.len < 2 ^ 64) →
    MergedOK (mergeRun pairs acc) := by
  intro pairs
  induction pairs with
  | nil =>
    intro acc h _
    exact h
  | cons q rest ih =>
    intro acc h hb
    rcases q with ⟨m, lg⟩
    show MergedOK (mergeRun rest (m.inner.foldl (mergeEntry (rest.map Prod.fst) lg) acc))
    refine ih _ ?_ (fun q' hq' => hb q' (List.mem_cons_of_mem _ hq'))
    exact foldl_mergeEntry_MergedOK _ _ h (hb (m, lg) (List.mem_cons_self _ _))

theorem inv_mergePhase {e : Engine} (h : EngineInv e) : EngineInv e.mergePhase := by
  obtain ⟨hne, hf⟩ := h
  unfold Engine.mergePhase
  split_ifs with hgt
  · have hm3 : 2 < e.maps.length := by
      rw [List.Forall₂.length_eq hf]
      exact hgt
    obtain ⟨m0, m1, mrest, hm⟩ : ∃ a b t, e.maps = a :: b :: t := by
      cases hM : e.maps with
      | nil =>
        rw [hM] at hm3
        simp at hm3
      | cons a t =>
        cases hT : t with
        | nil =>
          rw [hM, hT] at hm3
          simp at hm3
        | cons b t' => exact ⟨a, b, t', rfl⟩
    obtain ⟨l0, l1, lrest, hl⟩ : ∃ a b t, e.logs = a :: b :: t := by
      have hl3 : 2 < e.logs.length := hgt
      cases hL : e.logs with
      | nil =>
        rw [hL] at hl3
        simp at hl3
      | cons a t =>
        cases hT : t with
        | nil =>
          rw [hL, hT] at hl3
          simp at hl3
        | cons b t' => exact ⟨a, b, t', rfl⟩
    rw [hm, hl] at hf
    rcases hf with _ | ⟨hR0, hf1⟩
    rcases hf1 with _ | ⟨hR1, hf2⟩
    rw [hm, hl]
    simp only [List.getD_cons_zero, List.getD_cons_succ, LogMerger.merge, LogMerger.new,
      List.map_cons, List.map_nil, List.zip_cons_cons, List.zip_nil_right]
    have hMOK : MergedOK (mergeRun
        [(Engine.populate_map_from_log Map.new l0, l0),
         (Engine.populate_map_from_log Map.new l1, l1)]
        (Map.new, ⟨l0.name, []⟩)) := by
      refine mergeRun_MergedOK _ _ ⟨WFLog.nil, rfl⟩ ?_
      intro q hq p hp
      rcases List.mem_cons.mp hq with hq | hq
      · subst hq
        have := rebuild_mem_props hR0.1 (by simpa using hp)
        exact ⟨this.1, this.2.1⟩
      · rw [List.mem_singleton] at hq
        subst hq
        have := rebuild_mem_props hR1.1 (by simpa using hp)
        exact ⟨this.1, this.2.1⟩
    constructor
    · simp
    · refine List.Forall₂.cons ⟨hMOK.1, ?_⟩ hf2
      rw [hMOK.2]
      exact mapEquiv_refl _
  · exact ⟨hne, hf⟩

theorem inv_set {e : Engine} (h : EngineInv e) {k v : Bytes}
    (hk : k.length < 2 ^ 64) (hv : v.length < 2 ^ 64) : EngineInv (e.set k v) :=
  inv_appendPhase (inv_mergePhase (inv_growPhase h)) hk hv

theorem run_inv (ops : List Op) (hops : ∀ op ∈ ops, opOK op = true) :
    EngineInv (run ops) := by
  unfold run
  suffices haux : ∀ (l : List Op) (e : Engine), EngineInv e →
      (∀ op ∈ l, opOK op = true) → EngineInv (l.foldl applyOp e) by
    exact haux ops _ (inv_new (by simp)) hops
  intro l
  induction l with
  | nil =>
    intro e he _
    exact he
  | cons op t ih =>
    intro e he hl
    rw [List.foldl_cons]
    refine ih _ ?_ (fun o ho => hl o (List.mem_cons_of_mem _ ho))
    have hop := hl op (List.mem_cons_self _ _)
    cases op with
    | set k v =>
      unfold opOK at hop
      rw [Bool.and_eq_true, decide_eq_true_iff, decide_eq_true_iff] at hop
      exact inv_set he hop.1 hop.2
    | del k =>
      unfold opOK at hop
      rw [decide_eq_true_iff] at hop
      exact inv_del he hop

/-! ### Claim C10 -/

/-- C10: every engine operation preserves the pairing invariant: `Engine::new`
establishes it (for any directory of well-formed segment files, in particular
the empty one), and `grow`, `set` (including its internal compaction splice)
and `del` each preserve it.  `EngineInv` says the index list and segment list
have equal length (via `Forall₂`) and the index at position `i` agrees with
the index rebuilt from the segment at position `i`. -/
theorem engine_ops_preserve_inv (e : Engine) (segs : List Log) (k v : Bytes)
    (he : EngineInv e) (hsegs : ∀ lg ∈ segs, WFLog lg.data)
    (hk : k.length < 2 ^ 64) (hv : v.length < 2 ^ 64) :
    EngineInv (Engine.new segs) ∧ EngineInv e.grow ∧ EngineInv (e.set k v)
    ∧ EngineInv (e.del k) :=
  ⟨inv_new hsegs, inv_grow he, inv_set he hk hv, inv_del he hk⟩

theorem engine_ops_preserve_inv_witness :
    EngineInv (Engine.new []) ∧ EngineInv (Engine.new []).grow
    ∧ EngineInv ((Engine.new []).set [1] [2]) ∧ EngineInv ((Engine.new []).del [1]) :=
  engine_ops_preserve_inv (Engine.new []) [] [1] [2]
    (inv_new (by simp)) (by simp) (by decide) (by decide)

/-! ### Per-key behaviour of the merge, and claim C2 -/

theorem locEquiv_none_some {b : Location} (h : LocEquiv none (some b)) : False := h

theorem locEquiv_some_none {a : Location} (h : LocEquiv (some a) none) : False := h

theorem locEquiv_some_some {a b : Location} (h : LocEquiv (some a) (some b)) :
    a = b ∨ (a.is_tombstone = true ∧ b.is_tombstone = true) := h

/-- Replacing the two oldest (index, segment) pairs by the pair the merger
produces does not change what a newest-first scan of those two positions
returns, for any key. -/
theorem merge_scan_eq (l0 l1 : Log) (k : Bytes) :
    scanNewest [((mergeRun [(loadBytes Map.new l0.data, l0), (loadBytes Map.new l1.data, l1)]
        (Map.new, ⟨l0.name, []⟩)).1,
      (mergeRun [(loadBytes Map.new l0.data, l0), (loadBytes Map.new l1.data, l1)]
        (Map.new, ⟨l0.name, []⟩)).2)] k
    = scanNewest [(loadBytes Map.new l1.data, l1), (loadBytes Map.new l0.data, l0)] k := by
  have hnd0 : (loadBytes Map.new l0.data).keys.Nodup := loadBytes_new_nodup l0.data
  have hnd1 : (loadBytes Map.new l1.data).keys.Nodup := loadBytes_new_nodup l1.data
  have hrun : mergeRun [(loadBytes Map.new l0.data, l0), (loadBytes Map.new l1.data, l1)]
      (Map.new, ⟨l0.name, []⟩)
      = (loadBytes Map.new l1.data).inner.foldl (mergeEntry [] l1)
          ((loadBytes Map.new l0.data).inner.foldl
            (mergeEntry [loadBytes Map.new l1.data] l0) (Map.new, ⟨l0.name, []⟩)) := by
    simp [mergeRun]
  rw [hrun]
  rcases h1 : (loadBytes Map.new l1.data).get k with _ | loc1
  · have hk1 : k ∉ (loadBytes Map.new l1.data).keys := (Map.get_eq_none_iff _ k).mp h1
    have hov : ([loadBytes Map.new l1.data]).any (fun m => (m.get k).isSome) = false := by
      simp [h1]
    rcases h0 : (loadBytes Map.new l0.data).get k with _ | loc0
    · have hk0 : k ∉ (loadBytes Map.new l0.data).keys := (Map.get_eq_none_iff _ k).mp h0
      have hg : ((loadBytes Map.new l1.data).inner.foldl (mergeEntry [] l1)
          ((loadBytes Map.new l0.data).inner.foldl
            (mergeEntry [loadBytes Map.new l1.data] l0) (Map.new, ⟨l0.name, []⟩))).1.get k
          = none := by
        rw [fold_get_not_mem _ _ _ _ hk1, fold_get_not_mem _ _ _ _ hk0]
        rfl
      simp [scanNewest, hg, h1, h0]
    · have hmem0 := Map.mem_of_get_eq_some h0
      cases htomb : loc0.is_tombstone with
      | true =>
        have hg0 : ((loadBytes Map.new l0.data).inner.foldl
            (mergeEntry [loadBytes Map.new l1.data] l0) (Map.new, ⟨l0.name, []⟩)).1.get k
            = none := by
          refine fold_get_none_cond _ _ _ _ rfl ?_
          intro loc hm
          have := Map.get_eq_some_of_mem hnd0 hm
          rw [h0] at this
          injection this with this
          subst this
          exact Or.inr (Or.inl htomb)
        have hg : ((loadBytes Map.new l1.data).inner.foldl (mergeEntry [] l1)
            ((loadBytes Map.new l0.data).inner.foldl
              (mergeEntry [loadBytes Map.new l1.data] l0) (Map.new, ⟨l0.name, []⟩))).1.get k
            = none := by
          rw [fold_get_not_mem _ _ _ _ hk1]
          exact hg0
        simp [scanNewest, hg, h1, h0, htomb]
      | false =>
        rcases hread : l0.read loc0.offset loc0.len with _ | w
        · have hg0 : ((loadBytes Map.new l0.data).inner.foldl
              (mergeEntry [loadBytes Map.new l1.data] l0) (Map.new, ⟨l0.name, []⟩)).1.get k
              = none := by
            refine fold_get_none_cond _ _ _ _ rfl ?_
            intro loc hm
            have := Map.get_eq_some_of_mem hnd0 hm
            rw [h0] at this
            injection this with this
            subst this
            exact Or.inr (Or.inr hread)
          have hg : ((loadBytes Map.new l1.data).inner.foldl (mergeEntry [] l1)
              ((loadBytes Map.new l0.data).inner.foldl
                (mergeEntry [loadBytes Map.new l1.data] l0) (Map.new, ⟨l0.name, []⟩))).1.get k
              = none := by
            rw [fold_get_not_mem _ _ _ _ hk1]
            exact hg0
          simp [scanNewest, hg, h1, h0, htomb, hread]
        · obtain ⟨loc', hg', htomb', hread'⟩ :=
            fold_get_selected [loadBytes Map.new l1.data] l0 (loadBytes Map.new l0.data).inner
              (Map.new, ⟨l0.name, []⟩) hnd0 rfl hmem0 hov htomb hread
          have hg : ((loadBytes Map.new l1.data).inner.foldl (mergeEntry [] l1)
              ((loadBytes Map.new l0.data).inner.foldl
                (mergeEntry [loadBytes Map.new l1.data] l0) (Map.new, ⟨l0.name, []⟩))).1.get k
              = some loc' := by
            rw [fold_get_not_mem _ _ _ _ hk1]
            exact hg'
          obtain ⟨ext, hext⟩ := fold_extends [] l1 (loadBytes Map.new l1.data).inner
            ((loadBytes Map.new l0.data).inner.foldl
              (mergeEntry [loadBytes Map.new l1.data] l0) (Map.new, ⟨l0.name, []⟩))
          have hread2 := read_extend hext hread'
          simp [scanNewest, hg, htomb', hread2, h1, h0, htomb, hread]
  · have hov : ([loadBytes Map.new l1.data]).any (fun m => (m.get k).isSome) = true := by
      simp [h1]
    have hmem1 := Map.mem_of_get_eq_some h1
    have hg0 : ((loadBytes Map.new l0.data).inner.foldl
        (mergeEntry [loadBytes Map.new l1.data] l0) (Map.new, ⟨l0.name, []⟩)).1.get k
        = none :=
      fold_get_none_cond _ _ _ _ rfl (fun loc hm => Or.inl hov)
    cases htomb1 : loc1.is_tombstone with
    | true =>
      have hg : ((loadBytes Map.new l1.data).inner.foldl (mergeEntry [] l1)
          ((loadBytes Map.new l0.data).inner.foldl
            (mergeEntry [loadBytes Map.new l1.data] l0) (Map.new, ⟨l0.name, []⟩))).1.get k
          = none := by
        refine fold_get_none_cond _ _ _ _ hg0 ?_
        intro loc hm
        have := Map.get_eq_some_of_mem hnd1 hm
        rw [h1] at this
        injection this with this
        subst this
        exact Or.inr (Or.inl htomb1)
      simp [scanNewest, hg, h1, htomb1]
    | false =>
      rcases hread : l1.read loc1.offset loc1.len with _ | w
      · have hg : ((loadBytes Map.new l1.data).inner.foldl (mergeEntry [] l1)
            ((loadBytes Map.new l0.data).inner.foldl
              (mergeEntry [loadBytes Map.new l1.data] l0) (Map.new, ⟨l0.name, []⟩))).1.get k
            = none := by
          refine fold_get_none_cond _ _ _ _ hg0 ?_
          intro loc hm
          have := Map.get_eq_some_of_mem hnd1 hm
          rw [h1] at this
          injection this with this
          subst this
          exact Or.inr (Or.inr hread)
        simp [scanNewest, hg, h1, htomb1, hread]
      · obtain ⟨loc', hg', htomb', hread'⟩ :=
          fold_get_selected [] l1 (loadBytes Map.new l1.data).inner
            ((loadBytes Map.new l0.data).inner.foldl
              (mergeEntry [loadBytes Map.new l1.data] l0) (Map.new, ⟨l0.name, []⟩))
            hnd1 hg0 hmem1 (by simp) htomb1 hread
        simp [scanNewest, hg', htomb', hread', h1, htomb1, hread]

/-- A newest-first scan of two positions is unchanged when both indexes are
replaced by `LocEquiv`-equal ones. -/
theorem scan2_equiv {m0 m1 r0 r1 : Map} (l0 l1 : Log)
    (h0 : MapEquiv m0 r0) (h1 : MapEquiv m1 r1) (k : Bytes) :
    scanNewest [(m1, l1), (m0, l0)] k = scanNewest [(r1, l1), (r0, l0)] k := by
  have e1 := h1 k
  rcases hg1 : m1.get k with _ | a <;> rcases hg1' : r1.get k with _ | b
  · have e0 := h0 k
    rcases hg0 : m0.get k with _ | a0 <;> rcases hg0' : r0.get k with _ | b0
    · simp [scanNewest, hg1, hg1', hg0, hg0']
    · rw [hg0, hg0'] at e0
      exact absurd (locEquiv_none_some e0) (by simp)
    · rw [hg0, hg0'] at e0
      exact absurd (locEquiv_some_none e0) (by simp)
    · rw [hg0, hg0'] at e0
      rcases locEquiv_some_some e0 with heq | ⟨ht1, ht2⟩
      · subst heq
        simp [scanNewest, hg1, hg1', hg0, hg0']
      · simp [scanNewest, hg1, hg1', hg0, hg0', ht1, ht2]
  · rw [hg1, hg1'] at e1
    exact absurd (locEquiv_none_some e1) (by simp)
  · rw [hg1, hg1'] at e1
    exact absurd (locEquiv_some_none e1) (by simp)
  · rw [hg1, hg1'] at e1
    rcases locEquiv_some_some e1 with heq | ⟨ht1, ht2⟩
    · subst heq
      simp [scanNewest, hg1, hg1']
    · simp [scanNewest, hg1, hg1', ht1, ht2]

/-- Step 2 of `Engine::set` (the compaction splice) never changes the result
of `Engine::get`, on any engine satisfying the invariant. -/
theorem mergePhase_get (e : Engine) (hinv : EngineInv e) (k : Bytes) :
    e.mergePhase.get k = e.get k := by
  obtain ⟨hne, hf⟩ := hinv
  unfold Engine.mergePhase
  split_ifs with hgt
  · have hm3 : 2 < e.maps.length := by
      rw [List.Forall₂.length_eq hf]
      exact hgt
    obtain ⟨m0, m1, mrest, hm⟩ : ∃ a b t, e.maps = a :: b :: t := by
      cases hM : e.maps with
      | nil =>
        rw [hM] at hm3
        simp at hm3
      | cons a t =>
        cases hT : t with
        | nil =>
          rw [hM, hT] at hm3
          simp at hm3
        | cons b t' => exact ⟨a, b, t', rfl⟩
    obtain ⟨l0, l1, lrest, hl⟩ : ∃ a b t, e.logs = a :: b :: t := by
      have hl3 : 2 < e.logs.length := hgt
      cases hL : e.logs with
      | nil =>
        rw [hL] at hl3
        simp at hl3
      | cons a t =>
        cases hT : t with
        | nil =>
          rw [hL, hT] at hl3
          simp at hl3
        | cons b t' => exact ⟨a, b, t', rfl⟩
    rw [hm, hl] at hf
    rcases hf with _ | ⟨hR0, hf1⟩
    rcases hf1 with _ | ⟨hR1, hf2⟩
    unfold Engine.get
    rw [hm, hl]
    simp only [List.getD_cons_zero, List.getD_cons_succ, LogMerger.merge, LogMerger.new,
      List.map_cons, List.map_nil, List.zip_cons_cons, List.zip_nil_right,
      List.drop_succ_cons, List.drop_zero, List.reverse_cons]
    rw [List.append_assoc]
    rw [scanNewest_append ((mrest.zip lrest).reverse), scanNewest_append ((mrest.zip lrest).reverse)]
    split_ifs
    · rfl
    · rw [List.singleton_append]
      rw [scan2_equiv l0 l1 hR0.2 hR1.2 k]
      exact merge_scan_eq l0 l1 k
  · rfl

/-- C2: for every sequence of `set`/`del` operations (performed on an engine
opened on an empty directory), the key-to-value mapping observable through
`get` is identical immediately before and immediately after the compaction
step inside the next `set` — the state just after the rotation check
(`growPhase`) and the state just after the merge splice (`mergePhase`) answer
every `get` identically, whether or not a merge was actually triggered. -/
theorem compaction_preserves_get (ops : List Op)
    (hops : ∀ op ∈ ops, opOK op = true) (key : Bytes) :
    ((run ops).growPhase.mergePhase).get key = ((run ops).growPhase).get key :=
  mergePhase_get _ (inv_growPhase (run_inv ops hops)) key

theorem compaction_preserves_get_witness :
    (∀ op ∈ [Op.set [0] [1], Op.set [1] [2], Op.set [2] [3], Op.set [3] [4]],
      opOK op = true)
    ∧ ((run [Op.set [0] [1], Op.set [1] [2], Op.set [2] [3],
          Op.set [3] [4]]).growPhase.mergePhase).get [0]
      = ((run [Op.set [0] [1], Op.set [1] [2], Op.set [2] [3],
          Op.set [3] [4]]).growPhase).get [0] :=
  ⟨by decide, compaction_preserves_get
    [Op.set [0] [1], Op.set [1] [2], Op.set [2] [3], Op.set [3] [4]] (by decide) [0]⟩

/-! ### Record counting in the consolidated segment, and claim C3 -/

theorem recordKeys_snoc {data : Bytes} {es : List LogEntry} (hes : parse data = some es)
    {k' v : Bytes} (hk : k'.length < 2 ^ 64) (hv : v.length < 2 ^ 64) :
    recordKeys (data ++ encodeRecord k' v) = recordKeys data ++ [k'] := by
  unfold recordKeys
  simp only [parse_snoc hk hv hes, hes, List.map_append]
  rfl

theorem count_concat (l : List Bytes) (a b : Bytes) :
    (l ++ [a]).count b = l.count b + (if a = b then 1 else 0) := by
  rw [List.count_append, List.count_cons, List.count_nil]
  simp [beq_iff_eq]

theorem countRecords_snoc {data : Bytes} {es : List LogEntry} (hes : parse data = some es)
    {k' v : Bytes} (hk : k'.length < 2 ^ 64) (hv : v.length < 2 ^ 64) (k : Bytes) :
    countRecords (data ++ encodeRecord k' v) k
      = countRecords data k + (if k' = k then 1 else 0) := by
  unfold countRecords
  rw [recordKeys_snoc hes hk hv, count_concat]

theorem mergeEntry_CountOK {L : List Map} {sl : Log} {acc : Map × Log}
    {kv : Bytes × Location} (h : CountOK acc)
    (hkk : kv.1.length < 2 ^ 64) (hkl : kv.2.len < 2 ^ 64)
    (hfresh : acc.1.get kv.1 = none) :
    CountOK (mergeEntry L sl acc kv) := by
  obtain ⟨hwf, heq, hcnt⟩ := h
  have hMO : MergedOK (mergeEntry L sl acc kv) := mergeEntry_MergedOK ⟨hwf, heq⟩ hkk hkl
  refine ⟨hMO.1, hMO.2, ?_⟩
  intro k
  by_cases hc : (!(L.any (fun m => (m.get kv.1).isSome)) && !kv.2.is_tombstone) = true
  · rcases hread : sl.read kv.2.offset kv.2.len with _ | w
    · have hstep : mergeEntry L sl acc kv = acc := by
        unfold mergeEntry
        rw [if_pos hc]
        simp only [hread]
      rw [hstep]
      exact hcnt k
    · have hstep1 : (mergeEntry L sl acc kv).1
          = acc.1.insert kv.1 ⟨(acc.2.append kv.1 w).2, w.length⟩ := by
        unfold mergeEntry
        rw [if_pos hc]
        simp only [hread]
      have hstep2 : (mergeEntry L sl acc kv).2 = (acc.2.append kv.1 w).1 := by
        unfold mergeEntry
        rw [if_pos hc]
        simp only [hread]
      rw [hstep1, hstep2]
      obtain ⟨es, hes, _⟩ := WFLog_parse hwf
      have hwl : w.length = kv.2.len := read_some_length hread
      show countRecords ((acc.2.append kv.1 w).1).data k = _
      simp only [Log.append]
      rw [countRecords_snoc hes hkk (by rw [hwl]; exact hkl) k]
      by_cases hkk' : kv.1 = k
      · subst hkk'
        have h0 := hcnt kv.1
        rw [hfresh] at h0
        simp only [Option.isSome_none, Bool.false_eq_true, if_false] at h0
        simp [Map.get_insert_self, h0]
      · simp only [Map.get_insert_ne _ _ (fun hh => hkk' hh.symm)]
        rw [if_neg hkk', Nat.add_zero]
        exact hcnt k
  · have hstep : mergeEntry L sl acc kv = acc := by
      unfold mergeEntry
      rw [if_neg hc]
    rw [hstep]
    exact hcnt k

theorem foldl_mergeEntry_CountOK {L : List Map} {sl : Log} :
    ∀ (es : List (Bytes × Location)) (acc : Map × Log), CountOK acc →
    (∀ p ∈ es, p.1.length < 2 ^ 64 ∧ p.2.len < 2 ^ 64) →
    (es.map Prod.fst).Nodup →
    (∀ p ∈ es, acc.1.get p.1 = none) →
    CountOK (es.foldl (mergeEntry L sl) acc) := by
  intro es
  induction es with
  | nil =>
    intro acc h _ _ _
    exact h
  | cons p rest ih =>
    intro acc h hb hnd hdisj
    rw [List.map_cons, List.nodup_cons] at hnd
    rw [List.foldl_cons]
    have hb0 := hb p (List.mem_cons_self _ _)
    refine ih _ (mergeEntry_CountOK h hb0.1 hb0.2 (hdisj p (List.mem_cons_self _ _)))
      (fun q hq => hb q (List.mem_cons_of_mem _ hq)) hnd.2 ?_
    intro q hq
    have hqp : q.1 ≠ p.1 := by
      intro hqq
      apply hnd.1
      rw [← hqq]
      exact List.mem_map.mpr ⟨q, hq, rfl⟩
    rw [mergeEntry_get_ne L sl acc p hqp]
    exact hdisj q (List.mem_cons_of_mem _ hq)

theorem fold_get_some_not_overwritten {L : List Map} {sl : Log}
    {es : List (Bytes × Location)} {acc : Map × Log} {k : Bytes} {loc : Location}
    (hsome : (es.foldl (mergeEntry L sl) acc).1.get k = some loc)
    (hacc : acc.1.get k = none) :
    L.any (fun m => (m.get k).isSome) = false := by
  by_contra hL
  rw [Bool.not_eq_false] at hL
  have hnone := fold_get_none_cond L sl es acc hacc (fun loc2 _ => Or.inl hL)
  rw [hnone] at hsome
  cases hsome

/-- A rebuilt location can always be read back from its segment. -/
theorem read_of_rebuild_mem {lg : Log} (hwf : WFLog lg.data) {k : Bytes} {loc : Location}
    (hmem : (k, loc) ∈ (loadBytes Map.new lg.data).inner) :
    ∃ w, lg.read loc.offset loc.len = some w := by
  have hb := rebuild_mem_props hwf hmem
  unfold Log.read
  rw [if_pos hb.2.2]
  exact ⟨_, rfl⟩

/-- After merging, the consolidated segment holds one record for each key
live across the pair and none for any other key. -/
theorem merged_count (l0 l1 : Log) (h0 : WFLog l0.data) (h1 : WFLog l1.data) (k : Bytes) :
    countRecords ((mergeRun [(loadBytes Map.new l0.data, l0), (loadBytes Map.new l1.data, l1)]
        (Map.new, ⟨l0.name, []⟩)).2).data k
    = if liveInPair (loadBytes Map.new l0.data) (loadBytes Map.new l1.data) k
      then 1 else 0 := by
  have hnd0 : (loadBytes Map.new l0.data).keys.Nodup := loadBytes_new_nodup l0.data
  have hnd1 : (loadBytes Map.new l1.data).keys.Nodup := loadBytes_new_nodup l1.data
  have hrun : mergeRun [(loadBytes Map.new l0.data, l0), (loadBytes Map.new l1.data, l1)]
      (Map.new, ⟨l0.name, []⟩)
      = (loadBytes Map.new l1.data).inner.foldl (mergeEntry [] l1)
          ((loadBytes Map.new l0.data).inner.foldl
            (mergeEntry [loadBytes Map.new l1.data] l0) (Map.new, ⟨l0.name, []⟩)) := by
    simp [mergeRun]
  rw [hrun]
  have hb0 : ∀ p ∈ (loadBytes Map.new l0.data).inner,
      p.1.length < 2 ^ 64 ∧ p.2.len < 2 ^ 64 := by
    intro p hp
    have := rebuild_mem_props h0 (by simpa using hp)
    exact ⟨this.1, this.2.1⟩
  have hb1 : ∀ p ∈ (loadBytes Map.new l1.data).inner,
      p.1.length < 2 ^ 64 ∧ p.2.len < 2 ^ 64 := by
    intro p hp
    have := rebuild_mem_props h1 (by simpa using hp)
    exact ⟨this.1, this.2.1⟩
  have hC0 : CountOK (Map.new, ⟨l0.name, []⟩) := ⟨WFLog.nil, rfl, fun _ => rfl⟩
  have hCp : CountOK ((loadBytes Map.new l0.data).inner.foldl
      (mergeEntry [loadBytes Map.new l1.data] l0) (Map.new, ⟨l0.name, []⟩)) :=
    foldl_mergeEntry_CountOK _ _ hC0 hb0 hnd0 (fun _ _ => rfl)
  have hdisj1 : ∀ p ∈ (loadBytes Map.new l1.data).inner,
      ((loadBytes Map.new l0.data).inner.foldl
        (mergeEntry [loadBytes Map.new l1.data] l0) (Map.new, ⟨l0.name, []⟩)).1.get p.1
      = none := by
    intro p hp
    rcases hg : ((loadBytes Map.new l0.data).inner.foldl
        (mergeEntry [loadBytes Map.new l1.data] l0) (Map.new, ⟨l0.name, []⟩)).1.get p.1
      with _ | loc
    · rfl
    · exfalso
      have hL := fold_get_some_not_overwritten hg rfl
      have hsome : (loadBytes Map.new l1.data).get p.1 = some p.2 :=
        Map.get_eq_some_of_mem hnd1 (by simpa using hp)
      simp [hsome] at hL
  have hCr : CountOK ((loadBytes Map.new l1.data).inner.foldl (mergeEntry [] l1)
      ((loadBytes Map.new l0.data).inner.foldl
        (mergeEntry [loadBytes Map.new l1.data] l0) (Map.new, ⟨l0.name, []⟩))) :=
    foldl_mergeEntry_CountOK _ _ hCp hb1 hnd1 hdisj1
  rw [hCr.2.2 k]
  suffices hiff : (((loadBytes Map.new l1.data).inner.foldl (mergeEntry [] l1)
      ((loadBytes Map.new l0.data).inner.foldl
        (mergeEntry [loadBytes Map.new l1.data] l0) (Map.new, ⟨l0.name, []⟩))).1.get k).isSome
      = liveInPair (loadBytes Map.new l0.data) (loadBytes Map.new l1.data) k by
    rw [hiff]
  unfold liveInPair
  rcases h1g : (loadBytes Map.new l1.data).get k with _ | loc1
  · have hk1 : k ∉ (loadBytes Map.new l1.data).keys := (Map.get_eq_none_iff _ k).mp h1g
    rcases h0g : (loadBytes Map.new l0.data).get k with _ | loc0
    · have hk0 : k ∉ (loadBytes Map.new l0.data).keys := (Map.get_eq_none_iff _ k).mp h0g
      rw [fold_get_not_mem _ _ _ _ hk1, fold_get_not_mem _ _ _ _ hk0]
      rfl
    · cases htomb : loc0.is_tombstone with
      | true =>
        have hg0 : ((loadBytes Map.new l0.data).inner.foldl
            (mergeEntry [loadBytes Map.new l1.data] l0) (Map.new, ⟨l0.name, []⟩)).1.get k
            = none := by
          refine fold_get_none_cond _ _ _ _ rfl ?_
          intro loc hm
          have := Map.get_eq_some_of_mem hnd0 hm
          rw [h0g] at this
          injection this with this
          subst this
          exact Or.inr (Or.inl htomb)
        rw [fold_get_not_mem _ _ _ _ hk1, hg0]
        simp [htomb]
      | false =>
        have hmem := Map.mem_of_get_eq_some h0g
        obtain ⟨w, hw⟩ := read_of_rebuild_mem h0 hmem
        obtain ⟨loc', hg', _, _⟩ :=
          fold_get_selected [loadBytes Map.new l1.data] l0 (loadBytes Map.new l0.data).inner
            (Map.new, ⟨l0.name, []⟩) hnd0 rfl hmem (by simp [h1g]) htomb hw
        rw [fold_get_not_mem _ _ _ _ hk1, hg']
        simp [htomb]
  · have hmem1 := Map.mem_of_get_eq_some h1g
    have hg0 : ((loadBytes Map.new l0.data).inner.foldl
        (mergeEntry [loadBytes Map.new l1.data] l0) (Map.new, ⟨l0.name, []⟩)).1.get k
        = none := by
      refine fold_get_none_cond _ _ _ _ rfl ?_
      intro loc hm
      refine Or.inl ?_
      simp [h1g]
    cases htomb1 : loc1.is_tombstone with
    | true =>
      have hg : ((loadBytes Map.new l1.data).inner.foldl (mergeEntry [] l1)
          ((loadBytes Map.new l0.data).inner.foldl
            (mergeEntry [loadBytes Map.new l1.data] l0) (Map.new, ⟨l0.name, []⟩))).1.get k
          = none := by
        refine fold_get_none_cond _ _ _ _ hg0 ?_
        intro loc hm
        have := Map.get_eq_some_of_mem hnd1 hm
        rw [h1g] at this
        injection this with this
        subst this
        exact Or.inr (Or.inl htomb1)
      rw [hg]
      simp [htomb1]
    | false =>
      obtain ⟨w, hw⟩ := read_of_rebuild_mem h1 hmem1
      obtain ⟨loc', hg', _, _⟩ :=
        fold_get_selected [] l1 (loadBytes Map.new l1.data).inner
          ((loadBytes Map.new l0.data).inner.foldl
            (mergeEntry [loadBytes Map.new l1.data] l0) (Map.new, ⟨l0.name, []⟩))
          hnd1 hg0 hmem1 (by simp) htomb1 hw
      rw [hg']
      simp [htomb1]

/-- C3: after compacting the two oldest segments `[s0, s1]`, the consolidated
segment contains exactly one record for every key that is live across the
pair — its entry in the newest index of the pair holding it (last record in
that file, by I1) is not a tombstone — and no record for any key that was
tombstoned or superseded within the pair. -/
theorem merge_keeps_exactly_live (l0 l1 : Log)
    (h0 : WFLog l0.data) (h1 : WFLog l1.data) (k : Bytes) :
    countRecords (((LogMerger.new [l0, l1] l0.name).merge).merged_log).data k
      = if liveInPair (Map.load_from_log Map.new l0) (Map.load_from_log Map.new l1) k
        then 1 else 0 := by
  simp only [LogMerger.merge, LogMerger.new, List.map_cons, List.map_nil,
    List.zip_cons_cons, List.zip_nil_right]
  exact merged_count l0 l1 h0 h1 k

theorem merge_keeps_exactly_live_witness :
    WFLog (Log.mk 0 (([] ++ encodeRecord [1] [7]) ++ encodeRecord [2] [8])).data
    ∧ WFLog (Log.mk 1 ([] ++ encodeRecord [1] [])).data
    ∧ countRecords (((LogMerger.new
          [Log.mk 0 (([] ++ encodeRecord [1] [7]) ++ encodeRecord [2] [8]),
           Log.mk 1 ([] ++ encodeRecord [1] [])] 0).merge).merged_log).data [2]
      = if liveInPair
            (Map.load_from_log Map.new
              (Log.mk 0 (([] ++ encodeRecord [1] [7]) ++ encodeRecord [2] [8])))
            (Map.load_from_log Map.new (Log.mk 1 ([] ++ encodeRecord [1] []))) [2]
        then 1 else 0 := by
  have wf0 : WFLog (Log.mk 0 (([] ++ encodeRecord [1] [7]) ++ encodeRecord [2] [8])).data :=
    WFLog.snoc (WFLog.snoc WFLog.nil (by decide) (by decide)) (by decide) (by decide)
  have wf1 : WFLog (Log.mk 1 ([] ++ encodeRecord [1] [])).data :=
    WFLog.snoc WFLog.nil (by decide) (by decide)
  exact ⟨wf0, wf1, merge_keeps_exactly_live _ _ wf0 wf1 [2]⟩

theorem rebuild_replay_last_wins_witness :
    (parse (encodeRecord [1] [2])).isSome = true
    ∧ ([1] : Bytes).length < 2 ^ 64
    ∧ ([] : Bytes).length < 2 ^ 64
    ∧ (loadBytes Map.new (encodeRecord [1] [2] ++ encodeRecord [1] [])
        = (loadBytes Map.new (encodeRecord [1] [2])).insert [1]
            ⟨(encodeRecord [1] [2]).length + 8 + 1 + 8, 0⟩
      ∧ (loadBytes Map.new (encodeRecord [1] [2] ++ encodeRecord [1] [])).get [1]
          = some ⟨(encodeRecord [1] [2]).length + 8 + 1 + 8, 0⟩
      ∧ (([] : Bytes) = []
          → Location.is_tombstone ⟨(encodeRecord [1] [2]).length + 8 + 1 + 8, 0⟩ = true)) :=
  ⟨by decide, by decide, by decide,
   rebuild_replay_last_wins Map.new (encodeRecord [1] [2]) [1] []
     (by decide) (by decide) (by decide)⟩

end MossDB
